import Mathlib

/- Verification of the Google Maps scraping pipeline of src/main.py.

   The file is a shallow embedding of the program's pure extraction and
   normalization logic and of its two driver loops.  Python floats are
   modelled as exact rationals (the decimal strings the program parses are
   taken at their exact value); the browser, HTTP and UI capabilities are
   modelled as explicit inputs: element texts and attributes as
   `Option String` (`none` for a missing element or a swallowed read
   error), the per-round card scans, stop-flag polls and pagination
   outcomes as functions of the round or poll number, and the HTTP fetch
   as a `String → Option String` capability (`none` for a non-200 status,
   an error or a timeout).  Python regular expressions are embedded as
   specialized leftmost-search matchers with the exact greedy/backtracking
   behaviour the patterns of this program exhibit. -/

/-- Python `str.isspace` (and the regex class matched by Python's `\s`) on
ASCII characters, the only ones reaching the program's `strip` calls after
its non-ASCII filtering: code points 9 to 13 and 28 to 32. -/
def isPySpace (c : Char) : Bool :=
  (9 ≤ c.toNat && c.toNat ≤ 13) || (28 ≤ c.toNat && c.toNat ≤ 32)

/-- Drop the characters satisfying `p` from both ends of a list. -/
def stripSet (p : Char → Bool) (cs : List Char) : List Char :=
  ((cs.dropWhile p).reverse.dropWhile p).reverse

/-- Python `str.strip()` with no argument: whitespace stripped from both
ends. -/
def pyStrip (s : String) : String := String.mk (stripSet isPySpace s.data)

/-- Whether `pat` occurs as a contiguous run inside `cs` (Python's
`pat in s`). -/
def infixOfAux (pat : List Char) : List Char → Bool
  | [] => pat.isEmpty
  | c :: t => pat.isPrefixOf (c :: t) || infixOfAux pat t

/-- Python's substring test `pat in s`. -/
def containsSub (s pat : String) : Bool := infixOfAux pat.data s.data

/-- Characters kept by `sanitize_filename`: the class of its substitution
pattern (src/main.py line 107).  The pattern is a raw string holding two
backslashes, which the regex engine reads as an escaped literal
backslash, so the class keeps letters, digits, underscore, backslash and
hyphen. -/
def fsafe (c : Char) : Bool := c.isAlphanum || c = '_' || c = '\\' || c = '-'

/-- Scan for the substitution replacing every maximal run of characters
outside the class by a single underscore; the flag records whether the
previous character already belonged to such a run (so the run's later
characters are dropped rather than replaced again). -/
def collapseAux : Bool → List Char → List Char
  | _, [] => []
  | inRun, c :: t =>
    if fsafe c then c :: collapseAux false t
    else if inRun then collapseAux true t
    else '_' :: collapseAux true t

/-- Model of the substitution of src/main.py line 107: every maximal run
of characters outside the class becomes a single underscore. -/
def collapseUnsafe (cs : List Char) : List Char := collapseAux false cs

/-- Model of `sanitize_filename` (src/main.py lines 106-108): collapse the
unsafe runs, strip underscores from both ends, and fall back to
`"results"` when nothing is left. -/
def sanitize_filename (name : String) : String :=
  let safe := String.mk (stripSet (fun c => c = '_') (collapseUnsafe name.data))
  if safe = "" then "results" else safe

/-- Whether the string contains an ASCII digit: `re.search(r'\d', s)` on
the already ASCII-filtered segments. -/
def hasDigit (s : String) : Bool := s.data.any Char.isDigit

/-- Python regex `\w` over ASCII input: letters, digits and underscore. -/
def isWordC (c : Char) : Bool := c.isAlphanum || c = '_'

/-- Wordness of an optional character; `none` stands for the edge of the
subject string. -/
def optIsWord : Option Char → Bool
  | none => false
  | some c => isWordC c

/-- Word boundary `\b` between a previous and a next character. -/
def atBoundary (prev next : Option Char) : Bool := optIsWord prev != optIsWord next

/-- Consume one character satisfying `p`. -/
def consume1 (p : Char → Bool) : List Char → Option (List Char)
  | c :: t => if p c then some t else none
  | [] => none

/-- Consume exactly `n` characters satisfying `p`. -/
def consumeN (p : Char → Bool) : Nat → List Char → Option (List Char)
  | 0, cs => some cs
  | n + 1, cs => (consume1 p cs).bind (consumeN p n)

/-- Consume one character satisfying `p` when `b` is set, nothing
otherwise: one fixed choice for a regex `?` item. -/
def consumeOpt (b : Bool) (p : Char → Bool) (cs : List Char) : Option (List Char) :=
  if b then consume1 p cs else some cs

/-- One attempt of the postal pattern's first alternative
`[A-Z]{1,2}\d[A-Z0-9]?\s?\d[A-Z]{2}` (IGNORECASE) at a fixed choice of the
letter count and of the two optional items; returns the rest of the input
on success. -/
def tryShapeA (nL : Nat) (o1 o2 : Bool) (cs : List Char) : Option (List Char) :=
  (consumeN Char.isAlpha nL cs).bind fun r1 =>
  (consume1 Char.isDigit r1).bind fun r2 =>
  (consumeOpt o1 Char.isAlphanum r2).bind fun r3 =>
  (consumeOpt o2 isPySpace r3).bind fun r4 =>
  (consume1 Char.isDigit r4).bind fun r5 =>
  consumeN Char.isAlpha 2 r5

/-- Backtracking order of the first alternative's choices: greedy `{1,2}`
first, then the greedy `[A-Z0-9]?`, then the greedy `\s?`. -/
def shapeAChoices : List (Nat × Bool × Bool) :=
  [(2, true, true), (2, true, false), (2, false, true), (2, false, false),
   (1, true, true), (1, true, false), (1, false, true), (1, false, false)]

/-- Greedy attempts of the second alternative `\d{4,6}`. -/
def shapeBChoices : List Nat := [6, 5, 4]

/-- The trailing `\b` of the postal pattern: boundary between the last
matched character and the rest. -/
def checkTail (cs rest : List Char) : Bool :=
  atBoundary ((cs.take (cs.length - rest.length)).getLast?) rest.head?

/-- First choice of the first alternative that matches at this position
with the trailing boundary holding; yields the matched characters. -/
def firstShapeA (cs : List Char) : List (Nat × Bool × Bool) → Option (List Char)
  | [] => none
  | (nL, o1, o2) :: more =>
    match tryShapeA nL o1 o2 cs with
    | some r =>
      if checkTail cs r then some (cs.take (cs.length - r.length))
      else firstShapeA cs more
    | none => firstShapeA cs more

/-- First greedy digit count of the second alternative that matches at
this position with the trailing boundary holding. -/
def firstShapeB (cs : List Char) : List Nat → Option (List Char)
  | [] => none
  | n :: more =>
    match consumeN Char.isDigit n cs with
    | some r => if checkTail cs r then some (cs.take n) else firstShapeB cs more
    | none => firstShapeB cs more

/-- Attempt of the whole postal pattern at one position; `prev` is the
character just before it, for the leading `\b`. -/
def tryPostalAt (prev : Option Char) (cs : List Char) : Option (List Char) :=
  if atBoundary prev cs.head? then
    match firstShapeA cs shapeAChoices with
    | some m => some m
    | none => firstShapeB cs shapeBChoices
  else none

/-- Leftmost search of
`\b([A-Z]{1,2}\d[A-Z0-9]?\s?\d[A-Z]{2}|\d{4,6})\b` (IGNORECASE), as
`re.search` performs it (src/main.py line 129). -/
def searchPostal (prev : Option Char) (cs : List Char) : Option (List Char) :=
  match tryPostalAt prev cs with
  | some m => some m
  | none =>
    match cs with
    | [] => none
    | c :: t => searchPostal (some c) t
termination_by cs.length

/-- Python `re.sub(re.escape(z), '', s)`: delete the non-overlapping
occurrences of the literal `z`, scanning left to right. -/
def removeAll (z : List Char) : List Char → List Char
  | [] => []
  | c :: t =>
    if hz : z ≠ [] ∧ z.isPrefixOf (c :: t) then removeAll z ((c :: t).drop z.length)
    else c :: removeAll z t
termination_by cs => cs.length
decreasing_by
  all_goals simp only [List.length_cons, List.length_drop]
  · have : 1 ≤ z.length := List.length_pos.mpr hz.1
    omega
  · omega

/-- Python `s.split(',')`: cut at every comma, keeping empty pieces. -/
def splitComma : List Char → List String
  | [] => [""]
  | c :: rest =>
    if c = ',' then "" :: splitComma rest
    else
      match splitComma rest with
      | s :: ss => String.mk (c :: s.data) :: ss
      | [] => [String.mk [c]]

/-- Python `str.lower()` on the ASCII labels this program matches. -/
def pyLower (s : String) : String := String.mk (s.data.map Char.toLower)

/-- Comma segmentation of an address after the non-ASCII strip
(src/main.py lines 114-115): the cleaned string split on commas, each
piece stripped, empty pieces dropped. -/
def addressSegments (address : String) : List String :=
  let cleaned := pyStrip (String.mk (address.data.filter (fun c => c.toNat ≤ 127)))
  ((splitComma cleaned.data).map pyStrip).filter (fun p => p ≠ "")

/-- Model of `parse_address_parts` (src/main.py lines 112-140): the
`(city, zip_code, country)` triple derived from a free-text address. -/
def parse_address_parts (address : String) : String × String × String :=
  let parts := addressSegments address
  if parts = [] then ("-", "-", "-")
  else
    let ct :=
      if 2 ≤ parts.length && !(hasDigit (parts.getLastD "")) then
        (parts.getLastD "", parts.getD (parts.length - 2) "")
      else ("-", parts.getLastD "")
    let country := ct.1
    let target := ct.2
    let cz :=
      match searchPostal none target.data with
      | some m =>
        let z := pyStrip (String.mk m)
        let cityChars := stripSet isPySpace
          (stripSet (fun c => c = ',' || c = ' ') (removeAll z.data target.data))
        (String.mk cityChars, z)
      | none => (pyStrip target, "-")
    let city := if cz.1 = "" then "-" else cz.1
    let zip_code := if cz.2 = "" then "-" else cz.2
    let country2 := if country = "" then "-" else country
    (city, zip_code, country2)

/-- Numeric value of a digit run, most significant first. -/
def digitsVal (cs : List Char) : Nat :=
  cs.foldl (fun n c => 10 * n + (c.toNat - 48)) 0

/-- Python `float()` on the sign / digit / dot strings this program feeds
it, at their exact rational value: `[-] digits [. digits]` with at least
one digit somewhere; anything else (a bare dot or sign, a second dot or
sign, an empty string) raises, which callers turn into their `except`
branch, modelled as `none`. -/
def parseUnsignedFloat (cs : List Char) : Option Rat :=
  let intPart := cs.takeWhile Char.isDigit
  let rest := cs.dropWhile Char.isDigit
  match rest with
  | [] => if intPart = [] then none else some (digitsVal intPart)
  | '.' :: frac =>
    if frac.all Char.isDigit && (intPart ≠ [] || frac ≠ []) then
      some ((digitsVal intPart : Rat) + (digitsVal frac : Rat) / ((10 : Rat) ^ frac.length))
    else none
  | _ => none

/-- Python `float()` including an optional leading minus sign. -/
def parsePyFloat (cs : List Char) : Option Rat :=
  match cs with
  | '-' :: rest => (parseUnsignedFloat rest).map (fun q => -q)
  | _ => parseUnsignedFloat cs

/-- Character class `[0-9\.-]` of both coordinate patterns. -/
def coordClass (c : Char) : Bool := c.isDigit || c = '.' || c = '-'

/-- Attempt of `@([0-9\.-]+),([0-9\.-]+)` at one position: the groups are
the maximal class runs (the class excludes the comma, so the regex never
backtracks into a shorter first group). -/
def matchCoordAt (cs : List Char) : Option (List Char × List Char) :=
  match cs with
  | '@' :: rest =>
    let r1 := rest.takeWhile coordClass
    if r1 = [] then none
    else
      match rest.dropWhile coordClass with
      | ',' :: rest2 =>
        let r2 := rest2.takeWhile coordClass
        if r2 = [] then none else some (r1, r2)
      | _ => none
  | _ => none

/-- Leftmost search of the `@lat,lng` pattern, as `re.search` performs it
(src/main.py line 280). -/
def searchCoordAt : List Char → Option (List Char × List Char)
  | [] => none
  | c :: t =>
    match matchCoordAt (c :: t) with
    | some m => some m
    | none => searchCoordAt t

/-- Attempt of `!3d([-0-9\.]+)!4d([-0-9\.]+)` at one position: again the
class excludes `!`, so the maximal first run must be followed by the
literal `!4d`. -/
def matchBangAt (cs : List Char) : Option (List Char × List Char) :=
  match cs with
  | '!' :: '3' :: 'd' :: rest =>
    let r1 := rest.takeWhile coordClass
    if r1 = [] then none
    else
      match rest.dropWhile coordClass with
      | '!' :: '4' :: 'd' :: rest2 =>
        let r2 := rest2.takeWhile coordClass
        if r2 = [] then none else some (r1, r2)
      | _ => none
  | _ => none

/-- Leftmost search of the `!3d<lat>!4d<lng>` pattern (src/main.py
line 286). -/
def searchBang : List Char → Option (List Char × List Char)
  | [] => none
  | c :: t =>
    match matchBangAt (c :: t) with
    | some m => some m
    | none => searchBang t

/-- Model of the coordinate extraction block of `extract_place`
(src/main.py lines 278-295): the `@lat,lng` pattern is tried first, the
`!3d!4d` pattern only when it is absent, and any `float()` failure lands
in the `except` branch that zeroes both coordinates. -/
def extract_coords (listing_url : String) : Rat × Rat :=
  match searchCoordAt listing_url.data with
  | some (g1, g2) =>
    match parsePyFloat g1, parsePyFloat g2 with
    | some la, some lo => (la, lo)
    | _, _ => (0, 0)
  | none =>
    match searchBang listing_url.data with
    | some (g1, g2) =>
      match parsePyFloat g1, parsePyFloat g2 with
      | some la, some lo => (la, lo)
      | _, _ => (0, 0)
    | none => (0, 0)

/-- Python `re.split(r'–|-|to', s)`: cut at every en dash, hyphen or
letter pair "to", scanning left to right (src/main.py line 212). -/
def splitSeps : List Char → List String
  | [] => [""]
  | 't' :: 'o' :: rest => "" :: splitSeps rest
  | c :: rest =>
    if c = '–' || c = '-' then "" :: splitSeps rest
    else
      let ss := splitSeps rest
      String.mk (c :: ((ss.headD "").data)) :: ss.tail

/-- Normalization of one row's hours text (src/main.py lines 204-215):
"Open 24 hours" and "Closed" detection, then separator splitting into
"open to close", a bare first token, or "-". -/
def normalizeTimes (times_text : String) : String :=
  let lt := pyLower times_text
  if containsSub lt "24" && containsSub lt "hour" then "Open 24 hours"
  else if containsSub lt "closed" then "Closed"
  else
    let parts := splitSeps times_text.data
    let open_time := pyStrip (parts.headD "")
    let close_time := pyStrip (parts.getD 1 "")
    if open_time ≠ "" && close_time ≠ "" then open_time ++ " to " ++ close_time
    else if open_time ≠ "" then open_time
    else "-"

/-- The `Place` dataclass (src/main.py lines 68-95), floats as exact
rationals and the two optional numeric fields as options. -/
structure Place where
  s_no : Nat := 0
  name : String := ""
  address : String := ""
  website : String := ""
  phone_number : String := ""
  reviews_count : Option Nat := none
  reviews_average : Option Rat := none
  category : String := ""
  latitude : Rat := 0
  longitude : Rat := 0
  city : String := ""
  zip_code : String := ""
  country : String := ""
  monday_hours : String := ""
  tuesday_hours : String := ""
  wednesday_hours : String := ""
  thursday_hours : String := ""
  friday_hours : String := ""
  saturday_hours : String := ""
  sunday_hours : String := ""
  instagram_url : String := ""
  facebook_url : String := ""
  linkedin_url : String := ""
  x_url : String := ""
  listing_url : String := ""
  source : String := ""
deriving Repr, DecidableEq

/-- A fresh `Place()` with the dataclass defaults. -/
def emptyPlace : Place := {}

/-- The day keys of `day_map`, in its iteration order. -/
def dayKeys : List String := ["mon", "tue", "wed", "thu", "fri", "sat", "sun"]

/-- The `setattr(place, day_map[key], v)` of the hours parser, as an
explicit update per key. -/
def setDay (p : Place) (key v : String) : Place :=
  if key = "mon" then { p with monday_hours := v }
  else if key = "tue" then { p with tuesday_hours := v }
  else if key = "wed" then { p with wednesday_hours := v }
  else if key = "thu" then { p with thursday_hours := v }
  else if key = "fri" then { p with friday_hours := v }
  else if key = "sat" then { p with saturday_hours := v }
  else if key = "sun" then { p with sunday_hours := v }
  else p

/-- Model of `parse_weekly_hours` (src/main.py lines 164-222).  `rows` are
the (day cell, hours cell) text pairs the widget's table yields; a row
whose reads raise is skipped by the source's inner `except`, so it is
simply absent here, and a widget that fails to open altogether is the
empty list.  All seven fields are first set to "-", then each row whose
stripped, lowercased day label contains a recognized three-letter key
(first key in Mon..Sun order wins) sets that day's field to its normalized
hours text.  Lowercasing is ASCII, as the labels this program matches
are. -/
def parse_weekly_hours (rows : List (String × String)) (place : Place) : Place :=
  let p0 := { place with
    monday_hours := "-",
    tuesday_hours := "-",
    wednesday_hours := "-",
    thursday_hours := "-",
    friday_hours := "-",
    saturday_hours := "-",
    sunday_hours := "-" }
  rows.foldl (fun p row =>
    let day_text := pyLower (pyStrip row.1)
    let times_text := pyStrip row.2
    match dayKeys.find? (fun d => containsSub day_text d) with
    | some key => setDay p key (normalizeTimes times_text)
    | none => p) p0

/-- Character class of the four social patterns: letters, digits, and the
characters underscore, dot, dash, slash, percent, question mark, equals. -/
def urlChar (c : Char) : Bool :=
  c.isAlphanum || c = '_' || c = '.' || c = '-' || c = '/' || c = '%' || c = '?' || c = '='

/-- The host alternatives of one social pattern, in the regex's
backtracking order: `(?:www\.)?instagram\.com/` tries the `www.` variant
first, `(?:twitter|x)\.com/` tries `twitter` first. -/
def instaAlts : List (List Char) := ["www.instagram.com/".data, "instagram.com/".data]

/-- Facebook host alternatives. -/
def fbAlts : List (List Char) := ["www.facebook.com/".data, "facebook.com/".data]

/-- LinkedIn host alternatives. -/
def liAlts : List (List Char) := ["www.linkedin.com/".data, "linkedin.com/".data]

/-- Twitter / X host alternatives. -/
def xAlts : List (List Char) := ["twitter.com/".data, "x.com/".data]

/-- Host alternatives tried at one position, after the literal
`https://`: first one followed by a non-empty `urlChar` run wins. -/
def matchSocialAlts : List (List Char) → List Char → Option (List Char)
  | [], _ => none
  | a :: more, rest =>
    if a.isPrefixOf rest then
      let run := (rest.drop a.length).takeWhile urlChar
      if run = [] then matchSocialAlts more rest
      else some (("https://".data ++ a) ++ run)
    else matchSocialAlts more rest

/-- Attempt of one social pattern at one position: the literal `https://`,
then a host alternative, then a non-empty `urlChar` run. -/
def matchSocialAt (alts : List (List Char)) (cs : List Char) : Option (List Char) :=
  if "https://".data.isPrefixOf cs then matchSocialAlts alts (cs.drop 8)
  else none

/-- Leftmost search of one social pattern, as `re.search` performs it
(src/main.py lines 234-241). -/
def searchSocial (alts : List (List Char)) : List Char → Option (List Char)
  | [] => none
  | c :: t =>
    match matchSocialAt alts (c :: t) with
    | some m => some m
    | none => searchSocial alts t

/-- The URL normalization at the top of `extract_social_links`
(src/main.py lines 228-230): scheme-relative and bare URLs get `https`. -/
def normalize_site_url (website_url : String) : String :=
  let u := if "//".data.isPrefixOf website_url.data then "https:" ++ website_url
           else website_url
  if !("http".data.isPrefixOf u.data) then
    "https://" ++ String.mk (u.data.dropWhile (fun c => c = '/'))
  else u

/-- Model of `extract_social_links` (src/main.py lines 225-242).  The HTTP
capability is `fetch`: `fetch url = some body` stands for a status-200
response with that body, `none` for a non-200 status, a request error or a
timeout — all the silently-absorbed paths. -/
def extract_social_links (fetch : String → Option String) (website_url : String)
    (place : Place) : Place :=
  if website_url = "" then place
  else
    match fetch (normalize_site_url website_url) with
    | none => place
    | some html =>
      let p1 := match searchSocial instaAlts html.data with
        | some m => { place with instagram_url := String.mk m }
        | none => place
      let p2 := match searchSocial fbAlts html.data with
        | some m => { p1 with facebook_url := String.mk m }
        | none => p1
      let p3 := match searchSocial liAlts html.data with
        | some m => { p2 with linkedin_url := String.mk m }
        | none => p2
      let p4 := match searchSocial xAlts html.data with
        | some m => { p3 with x_url := String.mk m }
        | none => p3
      p4

/-- Signals a loaded listing page offers to `extract_place`.  An element
text or attribute is `none` when the selector matches nothing or the read
raises (the swallowed paths of `extract_text` and of the inline `try`
blocks); `hoursRows` are the hours widget's readable rows; `fetch` is the
HTTP capability the social sniffer uses. -/
structure PageView where
  nameText : Option String := none
  addressText : Option String := none
  phoneText : Option String := none
  categoryText : Option String := none
  ratingLabel : Option String := none
  reviewsLabel : Option String := none
  authorityHref : Option String := none
  hoursRows : List (String × String) := []
  fetch : String → Option String := fun _ => none

/-- Model of `extract_text` (src/main.py lines 144-150): the element's
text stripped, "" when the element is absent or the read raises. -/
def extract_text (t : Option String) : String := pyStrip (t.getD "")

/-- First maximal run of characters satisfying `p`:
`re.findall(cls+, s)[0]` when the list is non-empty. -/
def firstRun (p : Char → Bool) : List Char → Option (List Char)
  | [] => none
  | c :: t => if p c then some ((c :: t).takeWhile p) else firstRun p t

/-- Character class `[0-9.]` of the rating pattern. -/
def ratingClass (c : Char) : Bool := c.isDigit || c = '.'

/-- Character class `[0-9,]` of the review-count pattern. -/
def countClass (c : Char) : Bool := c.isDigit || c = ','

/-- Python `int()` on the strings this program feeds it: a non-empty digit
run; anything else raises, which the caller's `except` turns into
`none`. -/
def parsePyInt (cs : List Char) : Option Nat :=
  if cs ≠ [] && cs.all Char.isDigit then some (digitsVal cs) else none

/-- The field pulls of `extract_place` before its final normalization
(src/main.py lines 244-306), in the source's order. -/
def extract_place_raw (pv : PageView) (user_input : String) (index : Nat)
    (listing_url : String) : Place :=
  let name := extract_text pv.nameText
  let address := extract_text pv.addressText
  let phone := extract_text pv.phoneText
  let category := extract_text pv.categoryText
  let reviews_average :=
    match pv.ratingLabel with
    | none => none
    | some lbl =>
      match firstRun ratingClass lbl.data with
      | none => none
      | some run => parsePyFloat run
  let reviews_count :=
    match pv.reviewsLabel with
    | none => none
    | some lbl =>
      match firstRun countClass lbl.data with
      | none => none
      | some run => parsePyInt (run.filter (fun c => c ≠ ','))
  let website :=
    match pv.authorityHref with
    | none => ""
    | some href =>
      let w :=
        if href ≠ "" && !("http".data.isPrefixOf href.data) then
          "https://" ++ String.mk (href.data.dropWhile (fun c => c = '/'))
        else href
      pyStrip w
  let coords := extract_coords listing_url
  let czc := if address ≠ "" then parse_address_parts address else ("-", "-", "-")
  let p1 : Place := {
    s_no := index,
    source := user_input,
    listing_url := listing_url,
    name := name,
    address := address,
    phone_number := phone,
    category := category,
    reviews_average := reviews_average,
    reviews_count := reviews_count,
    website := website,
    latitude := coords.1,
    longitude := coords.2,
    city := czc.1,
    zip_code := czc.2.1,
    country := czc.2.2 }
  let p2 := parse_weekly_hours pv.hoursRows p1
  if p2.website ≠ "" then extract_social_links pv.fetch p2.website p2 else p2

/-- The final pass of `extract_place` (src/main.py lines 308-309): every
string field that strips to "" becomes "-". -/
def normField (s : String) : String := if pyStrip s = "" then "-" else s

/-- Normalization applied to every string field of the dataclass, as the
`asdict` loop does. -/
def normalize_place (p : Place) : Place :=
  { p with
    name := normField p.name,
    address := normField p.address,
    website := normField p.website,
    phone_number := normField p.phone_number,
    category := normField p.category,
    city := normField p.city,
    zip_code := normField p.zip_code,
    country := normField p.country,
    monday_hours := normField p.monday_hours,
    tuesday_hours := normField p.tuesday_hours,
    wednesday_hours := normField p.wednesday_hours,
    thursday_hours := normField p.thursday_hours,
    friday_hours := normField p.friday_hours,
    saturday_hours := normField p.saturday_hours,
    sunday_hours := normField p.sunday_hours,
    instagram_url := normField p.instagram_url,
    facebook_url := normField p.facebook_url,
    linkedin_url := normField p.linkedin_url,
    x_url := normField p.x_url,
    listing_url := normField p.listing_url,
    source := normField p.source }

/-- Model of `extract_place` (src/main.py lines 244-310): the raw field
pulls followed by the final empty-string normalization. -/
def extract_place (pv : PageView) (user_input : String) (index : Nat)
    (listing_url : String) : Place :=
  normalize_place (extract_place_raw pv user_input index listing_url)

/-- One run's browser-side inputs to the URL-gathering loop of
`scrape_places_streamlit` (src/main.py lines 375-446): `stop t` is the
`should_stop()` poll at the top of round `t`, `cards t` the href
attributes of the listing cards scanned at round `t` ("" standing for a
card whose href attribute is missing), and `nextPage t` whether the
pagination attempt of round `t` (`go_to_next_results_page`) finds an
enabled next-page control and succeeds. -/
structure Feed where
  stop : Nat → Bool
  cards : Nat → List String
  nextPage : Nat → Bool

/-- The inner card scan of one round (src/main.py lines 399-409): append
each href that is truthy and not yet collected, counting additions, and
break out as soon as the cap is reached.  Returns the updated list and the
`added` counter. -/
def collectCards (maxL : Nat) : List String → List String → Nat → List String × Nat
  | [], urls, added => (urls, added)
  | h :: t, urls, added =>
    if h ≠ "" && !(urls.contains h) then
      let urls2 := urls ++ [h]
      if 0 < maxL && maxL ≤ urls2.length then (urls2, added + 1)
      else collectCards maxL t urls2 (added + 1)
    else collectCards maxL t urls added

/-- The URL-gathering `while True` loop (src/main.py lines 375-446), one
recursive call per iteration.  `fuel` bounds how many iterations are
unrolled and `t` numbers them; `none` means the loop was still running
after `fuel` iterations, `some urls` that it broke out with that list.
The scrolling block only drives the browser, so it has no counterpart on
this state; the `max_listings = 0` branch and the fixed-cap branch mirror
the source's two textually identical stale-round blocks. -/
def gatherListingUrls (maxL : Nat) (feed : Feed) :
    Nat → Nat → List String → Nat → Option (List String)
  | 0, _, _, _ => none
  | fuel + 1, t, urls, noNew =>
    if feed.stop t then some urls
    else
      let scan := collectCards maxL (feed.cards t) urls 0
      if 0 < maxL && maxL ≤ scan.1.length then some scan.1
      else if maxL = 0 then
        if scan.2 = 0 then
          if 5 ≤ noNew + 1 then
            if feed.nextPage t then gatherListingUrls maxL feed fuel (t + 1) scan.1 0
            else some scan.1
          else gatherListingUrls maxL feed fuel (t + 1) scan.1 (noNew + 1)
        else gatherListingUrls maxL feed fuel (t + 1) scan.1 0
      else
        if scan.2 = 0 then
          if 5 ≤ noNew + 1 then
            if feed.nextPage t then gatherListingUrls maxL feed fuel (t + 1) scan.1 0
            else some scan.1
          else gatherListingUrls maxL feed fuel (t + 1) scan.1 (noNew + 1)
        else gatherListingUrls maxL feed fuel (t + 1) scan.1 0

/-- References of a scan in order of first appearance, duplicates and
empty hrefs dropped: what an uncapped scan accumulates. -/
def firstSeenAux (acc : List String) : List String → List String
  | [] => acc
  | h :: t =>
    if h ≠ "" && !(acc.contains h) then firstSeenAux (acc ++ [h]) t
    else firstSeenAux acc t

/-- First-seen order dedup of a scan, starting from nothing. -/
def firstSeen (l : List String) : List String := firstSeenAux [] l

/-- All hrefs the feed exposes strictly before round `K`. -/
def feedShown (cards : Nat → List String) : Nat → List String
  | 0 => []
  | K + 1 => feedShown cards K ++ cards K

/-- The per-listing extraction loop (src/main.py lines 459-495): `pv idx`
is the page state after navigating to the idx-th link (1-based), `stop k`
the k-th `should_stop()` poll of this phase; each iteration extracts,
appends, then polls twice — the source's two post-append checks. -/
def extractionLoop (maxL : Nat) (ui : String) (pv : Nat → PageView) (stop : Nat → Bool) :
    List String → Nat → List Place → List Place
  | [], _, places => places
  | link :: rest, idx, places =>
    if 0 < maxL && maxL < idx then places
    else
      let place := extract_place (pv idx) ui idx link
      let places2 := places ++ [place]
      if stop (2 * (idx - 1)) then places2
      else if stop (2 * (idx - 1) + 1) then places2
      else extractionLoop maxL ui pv stop rest (idx + 1) places2

/-- Whether either of iteration `idx`'s two polls observes the stop
flag. -/
def stopsDuring (stop : Nat → Bool) (idx : Nat) : Bool :=
  stop (2 * (idx - 1)) || stop (2 * (idx - 1) + 1)

/-- The inter-phase stop handling (src/main.py lines 450-453): the session
stop flag is read once after URL gathering and cleared when it was set. -/
def flagAfterGather (b : Bool) : Bool := if b then false else b

/-- The control skeleton of `scrape_places_streamlit` (src/main.py lines
332-499): gather listing URLs, clear the session stop flag at the phase
boundary, then extract every gathered listing, the stop value at
extraction poll `k` being the residual boundary flag joined with any
fresh stop request `newReq k`.  `bFlag` is the session flag's value at
the boundary read; `none` propagates a gathering phase that outran its
fuel. -/
def scrape_places_streamlit (maxL : Nat) (ui : String) (feed : Feed) (bFlag : Bool)
    (newReq : Nat → Bool) (pv : Nat → PageView) (fuel : Nat) : Option (List Place) :=
  match gatherListingUrls maxL feed fuel 0 [] 0 with
  | none => none
  | some urls =>
    let residual := flagAfterGather bFlag
    some (extractionLoop maxL ui pv (fun k => residual || newReq k) urls 1 [])

/-- The normalized value of a string field is never empty: a blank strips
to "" and becomes "-", anything else keeps at least one character. -/
lemma normField_ne_empty (s : String) : normField s ≠ "" := by
  unfold normField
  split
  · decide
  · rename_i h
    intro hs
    exact h (by rw [hs]; rfl)

/-- Non-emptiness of every string field of a `Place`, the invariant the
final normalization pass establishes. -/
def PlaceStringsNonempty (p : Place) : Prop :=
  p.name ≠ "" ∧ p.address ≠ "" ∧ p.website ≠ "" ∧ p.phone_number ≠ "" ∧
  p.category ≠ "" ∧ p.city ≠ "" ∧ p.zip_code ≠ "" ∧ p.country ≠ "" ∧
  p.monday_hours ≠ "" ∧ p.tuesday_hours ≠ "" ∧ p.wednesday_hours ≠ "" ∧
  p.thursday_hours ≠ "" ∧ p.friday_hours ≠ "" ∧ p.saturday_hours ≠ "" ∧
  p.sunday_hours ≠ "" ∧ p.instagram_url ≠ "" ∧ p.facebook_url ≠ "" ∧
  p.linkedin_url ≠ "" ∧ p.x_url ≠ "" ∧ p.listing_url ≠ "" ∧ p.source ≠ ""

/-- The normalization pass leaves no string field empty, whatever the
record held before it. -/
lemma normalize_place_nonempty (p : Place) : PlaceStringsNonempty (normalize_place p) :=
  ⟨normField_ne_empty _, normField_ne_empty _, normField_ne_empty _, normField_ne_empty _,
   normField_ne_empty _, normField_ne_empty _, normField_ne_empty _, normField_ne_empty _,
   normField_ne_empty _, normField_ne_empty _, normField_ne_empty _, normField_ne_empty _,
   normField_ne_empty _, normField_ne_empty _, normField_ne_empty _, normField_ne_empty _,
   normField_ne_empty _, normField_ne_empty _, normField_ne_empty _, normField_ne_empty _,
   normField_ne_empty _⟩

/-- Every record `extract_place` returns has all string fields
non-empty. -/
lemma extract_place_nonempty (pv : PageView) (ui : String) (i : Nat) (url : String) :
    PlaceStringsNonempty (extract_place pv ui i url) :=
  normalize_place_nonempty _

/-- C2: for every listing-page state — any combination of absent optional
sub-elements (name, address, phone, category, rating, review count,
website, hours widget) — `extract_place` returns a `Place` without
raising, and after its final normalization pass every string-valued field
of the returned record is non-empty (at least one character, possibly the
placeholder "-").  Absence and swallowed read errors are the `none` and
empty cases of the `PageView`; totality of the Lean function is the
never-raises half, and the conjunction below the non-emptiness half. -/
theorem C2_extract_place_never_raises_nonempty_strings
    (pv : PageView) (ui : String) (i : Nat) (url : String) :
    PlaceStringsNonempty (extract_place pv ui i url) :=
  extract_place_nonempty pv ui i url

/-- Every character of a collapse scan is in the kept class: the kept
characters are in it by the test, the replacements are underscores. -/
lemma collapseAux_safe : ∀ (cs : List Char) (b : Bool), ∀ c ∈ collapseAux b cs, fsafe c = true := by
  intro cs
  induction cs with
  | nil => intro b c hc; simp [collapseAux] at hc
  | cons h t ih =>
    intro b c hc
    rw [collapseAux] at hc
    by_cases hs : fsafe h = true
    · rw [if_pos hs] at hc
      rcases List.mem_cons.mp hc with rfl | hm
      · exact hs
      · exact ih false c hm
    · rw [if_neg hs] at hc
      cases b with
      | true =>
        rw [if_pos rfl] at hc
        exact ih true c hc
      | false =>
        rw [if_neg Bool.false_ne_true] at hc
        rcases List.mem_cons.mp hc with rfl | hm
        · decide
        · exact ih true c hm

/-- Every character of a collapsed name is in the kept class. -/
lemma collapseUnsafe_safe : ∀ cs : List Char, ∀ c ∈ collapseUnsafe cs, fsafe c = true :=
  fun cs => collapseAux_safe cs false

/-- Stripping characters from both ends yields a sublist. -/
lemma stripSet_sublist (p : Char → Bool) (cs : List Char) :
    List.Sublist (stripSet p cs) cs := by
  unfold stripSet
  have h1 : (cs.dropWhile p).reverse.dropWhile p <:+ (cs.dropWhile p).reverse :=
    List.dropWhile_suffix p
  have h2 : ((cs.dropWhile p).reverse.dropWhile p).reverse <+: cs.dropWhile p := by
    apply List.reverse_suffix.mp
    rw [List.reverse_reverse]
    exact h1
  have h3 : cs.dropWhile p <:+ cs := List.dropWhile_suffix p
  exact List.Sublist.trans ( List.IsPrefix.sublist h2) ( List.IsSuffix.sublist h3)

/-- The program keeps a literal backslash: the substitution class of
src/main.py line 107 is written with a doubled backslash in a raw
string, so the backslash is a kept character and a base name containing
one is returned intact — outside the letters-digits-underscore-hyphen
reading of the filesystem-safe set. -/
theorem C8_backslash_counterexample :
    sanitize_filename "a\\b" = "a\\b" ∧
    ¬ (∀ c ∈ (sanitize_filename "a\\b").data,
        (c.isAlphanum || c = '_' || c = '-') = true) := by
  decide

/-- C8 (amended): for every user input, every character of the derived
output base name lies in the class the substitution keeps — letters,
digits, underscore, literal backslash and hyphen — the name is never
empty, and when the collapse-and-strip leaves an empty string the base
name defaults to "results".  The base name of the run is
`sanitize_filename` applied to the derived search title, so quantifying
over every input string covers every user input. -/
theorem C8_sanitize_filename_class_default (name : String) :
    (∀ c ∈ (sanitize_filename name).data, fsafe c = true) ∧
    sanitize_filename name ≠ "" ∧
    (String.mk (stripSet (fun c => c = '_') (collapseUnsafe name.data)) = "" →
      sanitize_filename name = "results") := by
  by_cases h : String.mk (stripSet (fun c => c = '_') (collapseUnsafe name.data)) = ""
  · simp only [sanitize_filename, if_pos h]
    exact ⟨by decide, by decide, by intro hh; trivial⟩
  · simp only [sanitize_filename, if_neg h]
    refine ⟨?_, h, fun hh => absurd hh h⟩
    intro c hc
    exact collapseUnsafe_safe name.data c
      (( stripSet_sublist (fun c => c = '_') (collapseUnsafe name.data)).mem hc)

/-- The last segment of a non-empty segmentation is one of its members. -/
lemma getLastD_mem_of_ne_nil (l : List String) (h : l ≠ []) : l.getLastD "" ∈ l := by
  cases l with
  | nil => exact absurd rfl h
  | cons a t =>
    rw [List.getLastD_eq_getLast?, List.getLast?_eq_getLast (a :: t) (by simp)]
    simp

/-- Every address segment is non-empty: the segmentation filters blanks
out. -/
lemma addressSegments_mem_ne_empty (address s : String)
    (hs : s ∈ addressSegments address) : s ≠ "" := by
  simp only [addressSegments, List.mem_filter] at hs
  exact of_decide_eq_true hs.2

/-- C4: for every address string that, after stripping non-ASCII
characters and splitting on commas into trimmed non-empty segments, has at
least two segments with the last segment containing no digit,
`parse_address_parts` returns that last segment as the country
component. -/
theorem C4_country_is_last_digitfree_segment (address : String)
    (h2 : 2 ≤ (addressSegments address).length)
    (hnd : hasDigit ((addressSegments address).getLastD "") = false) :
    (parse_address_parts address).2.2 = (addressSegments address).getLastD "" := by
  have hne : addressSegments address ≠ [] := by
    intro h
    rw [h] at h2
    simp at h2
  have hlast_ne : (addressSegments address).getLastD "" ≠ "" :=
    addressSegments_mem_ne_empty address _ (getLastD_mem_of_ne_nil _ hne)
  have hcond : (2 ≤ (addressSegments address).length &&
      !(hasDigit ((addressSegments address).getLastD ""))) = true := by
    rw [hnd]
    simpa using h2
  simp only [parse_address_parts, if_neg hne, hcond, if_true, if_neg hlast_ne]

/-- Witness for C4 at a concrete three-segment address. -/
theorem C4_country_is_last_digitfree_segment_witness :
    (parse_address_parts "12 Foo St, Karachi 74200, Pakistan").2.2 = "Pakistan" := by
  have h := C4_country_is_last_digitfree_segment "12 Foo St, Karachi 74200, Pakistan"
    (by decide) (by decide)
  rw [h]
  decide

/-- Evaluation scheme for `extract_coords` when the `@` pattern matched
and both groups parse. -/
lemma extract_coords_at_eval (url : String) (g1 g2 : List Char) (q1 q2 : Rat)
    (hs : searchCoordAt url.data = some (g1, g2))
    (h1 : parsePyFloat g1 = some q1) (h2 : parsePyFloat g2 = some q2) :
    extract_coords url = (q1, q2) := by
  simp only [extract_coords, hs, h1, h2]

/-- Evaluation scheme for `extract_coords` when only the `!3d!4d` pattern
matched and both groups parse. -/
lemma extract_coords_bang_eval (url : String) (g1 g2 : List Char) (q1 q2 : Rat)
    (hs : searchCoordAt url.data = none)
    (hb : searchBang url.data = some (g1, g2))
    (h1 : parsePyFloat g1 = some q1) (h2 : parsePyFloat g2 = some q2) :
    extract_coords url = (q1, q2) := by
  simp only [extract_coords, hs, hb, h1, h2]

/-- Parsed value of the token "24.8". -/
lemma parsePyFloat_24_8 : parsePyFloat "24.8".data = some ((24 : Rat) + 8 / 10 ^ 1) := by
  simp +decide [parsePyFloat, parseUnsignedFloat, digitsVal, List.takeWhile_cons,
    List.dropWhile_cons]

/-- Parsed value of the token "67.0". -/
lemma parsePyFloat_67_0 : parsePyFloat "67.0".data = some ((67 : Rat) + 0 / 10 ^ 1) := by
  simp +decide [parsePyFloat, parseUnsignedFloat, digitsVal, List.takeWhile_cons,
    List.dropWhile_cons]

/-- Parsed value of the token "67.05". -/
lemma parsePyFloat_67_05 : parsePyFloat "67.05".data = some ((67 : Rat) + 5 / 10 ^ 2) := by
  simp +decide [parsePyFloat, parseUnsignedFloat, digitsVal, List.takeWhile_cons,
    List.dropWhile_cons]

/-- Parsed value of the token "1.5". -/
lemma parsePyFloat_1_5 : parsePyFloat "1.5".data = some ((1 : Rat) + 5 / 10 ^ 1) := by
  simp +decide [parsePyFloat, parseUnsignedFloat, digitsVal, List.takeWhile_cons,
    List.dropWhile_cons]

/-- Parsed value of the token "2.5". -/
lemma parsePyFloat_2_5 : parsePyFloat "2.5".data = some ((2 : Rat) + 5 / 10 ^ 1) := by
  simp +decide [parsePyFloat, parseUnsignedFloat, digitsVal, List.takeWhile_cons,
    List.dropWhile_cons]

/-- C5 counterexample: the claim reads "a URL containing '@24.8,67.0'
yields (24.8, 67.0)", but the coordinate groups are greedy over the class
digits-dot-dash, so the URL "@24.8,67.05" — which contains "@24.8,67.0" —
parses its second group as "67.05" and yields (24.8, 67.05). -/
theorem C5_containing_url_counterexample :
    containsSub "@24.8,67.05" "@24.8,67.0" = true ∧
    extract_coords "@24.8,67.05" ≠ ((24.8 : Rat), (67.0 : Rat)) := by
  refine ⟨by decide, ?_⟩
  have he : extract_coords "@24.8,67.05" = ((24 : Rat) + 8 / 10 ^ 1, (67 : Rat) + 5 / 10 ^ 2) :=
    extract_coords_at_eval _ "24.8".data "67.05".data _ _ (by decide)
      parsePyFloat_24_8 parsePyFloat_67_05
  rw [he]
  intro h
  have h2 := congrArg Prod.snd h
  norm_num at h2

/-- C5 (amended): the coordinate extraction is a pure total function of
the listing URL: the `@lat,lng` pattern is tried first and wins over a
co-present `!3d!4d` pattern, the `!3d!4d` pattern is used when the `@`
pattern is absent, a string with no coordinate pattern (or one where
neither search matches) yields (0, 0), and a group that fails to parse as
a float yields (0, 0) with no fallback to the second pattern.  Because
each group is matched greedily over the digit-dot-dash class, the claim's
"a URL containing '@24.8,67.0'" must be read as a URL whose first
`@`-match has exactly the groups "24.8" and "67.0", as in the canonical
listing URL of the first conjunct. -/
theorem C5_coords_priority_fallback_defaults :
    extract_coords "https://www.google.com/maps/place/x/@24.8,67.0,15z/data"
      = ((24.8 : Rat), (67.0 : Rat)) ∧
    extract_coords "no coords here" = (0, 0) ∧
    extract_coords "https://g/maps/@1.5,2.5/x!3d9.9!4d8.8" = ((1.5 : Rat), (2.5 : Rat)) ∧
    extract_coords "https://g/maps/place?pb=!3d24.8!4d67.0" = ((24.8 : Rat), (67.0 : Rat)) ∧
    extract_coords "@..,..x!3d1.5!4d2.5" = (0, 0) ∧
    (∀ url : String, searchCoordAt url.data = none → searchBang url.data = none →
      extract_coords url = (0, 0)) := by
  refine ⟨?_, by decide, ?_, ?_, by decide, ?_⟩
  · have he := extract_coords_at_eval "https://www.google.com/maps/place/x/@24.8,67.0,15z/data"
      "24.8".data "67.0".data _ _ (by decide) parsePyFloat_24_8 parsePyFloat_67_0
    rw [he]
    norm_num
  · have he := extract_coords_at_eval "https://g/maps/@1.5,2.5/x!3d9.9!4d8.8"
      "1.5".data "2.5".data _ _ (by decide) parsePyFloat_1_5 parsePyFloat_2_5
    rw [he]
    norm_num
  · have he := extract_coords_bang_eval "https://g/maps/place?pb=!3d24.8!4d67.0"
      "24.8".data "67.0".data _ _ (by decide) (by decide) parsePyFloat_24_8 parsePyFloat_67_0
    rw [he]
    norm_num
  · intro url h1 h2
    simp only [extract_coords, h1, h2]

/-- Substring occurrences are splits of the subject around the pattern. -/
lemma infixOfAux_iff (pat : List Char) : ∀ cs : List Char,
    infixOfAux pat cs = true ↔ ∃ l r, cs = l ++ (pat ++ r) := by
  intro cs
  induction cs with
  | nil =>
    simp only [infixOfAux, List.isEmpty_iff]
    constructor
    · intro h
      exact ⟨[], [], by simp [h]⟩
    · rintro ⟨l, r, h⟩
      rcases List.append_eq_nil.mp h.symm with ⟨_, h2⟩
      exact (List.append_eq_nil.mp h2).1
  | cons c t ih =>
    simp only [infixOfAux, Bool.or_eq_true]
    constructor
    · rintro (h | h)
      · obtain ⟨r, hr⟩ := List.isPrefixOf_iff_prefix.mp h
        exact ⟨[], r, by simp [hr.symm]⟩
      · obtain ⟨l, r, hlr⟩ := ih.mp h
        exact ⟨c :: l, r, by simp [hlr]⟩
    · rintro ⟨l, r, hlr⟩
      cases l with
      | nil =>
        left
        exact List.isPrefixOf_iff_prefix.mpr ⟨r, by simpa using hlr.symm⟩
      | cons c2 l2 =>
        right
        simp only [List.cons_append] at hlr
        exact ih.mpr ⟨l2, r, (List.cons.injEq _ _ _ _ ▸ hlr).2⟩

/-- A pattern occurring in a contiguous piece occurs in the whole. -/
lemma infixOfAux_mono (pat l r cs : List Char) (h : infixOfAux pat cs = true) :
    infixOfAux pat (l ++ (cs ++ r)) = true := by
  rcases (infixOfAux_iff pat cs).mp h with ⟨a, b, hab⟩
  exact (infixOfAux_iff pat _).mpr ⟨l ++ a, b ++ r, by simp [hab]⟩

/-- The both-ends strip keeps a contiguous piece of the input. -/
lemma stripSet_within (p : Char → Bool) (cs : List Char) :
    ∃ l r, cs = l ++ (stripSet p cs ++ r) := by
  have hsuf : cs.dropWhile p <:+ cs := List.dropWhile_suffix p
  obtain ⟨l, hl⟩ := hsuf
  have h2 : stripSet p cs <+: cs.dropWhile p := by
    unfold stripSet
    apply List.reverse_suffix.mp
    rw [List.reverse_reverse]
    exact List.dropWhile_suffix p
  obtain ⟨r, hr⟩ := h2
  exact ⟨l, r, by rw [hr, hl]⟩

/-- A separator split always yields at least one piece. -/
lemma splitSeps_ne_nil (cs : List Char) : splitSeps cs ≠ [] := by
  induction cs using splitSeps.induct with
  | case1 => simp [splitSeps]
  | case2 rest ih => simp [splitSeps]
  | case3 c rest hno hdash ih =>
    rw [splitSeps]
    · split_ifs <;> simp
    · exact hno
  | case4 c rest hno hdash ih =>
    rw [splitSeps]
    · split_ifs <;> simp
    · exact hno

/-- The first piece of the split is a prefix of the input. -/
lemma splitSeps_head_leads : ∀ cs : List Char,
    (((splitSeps cs).headD "").data).isPrefixOf cs = true := by
  intro cs
  induction cs using splitSeps.induct with
  | case1 => simp [splitSeps, List.isPrefixOf]
  | case2 rest ih => simp [splitSeps, List.isPrefixOf]
  | case3 c rest hno hdash ih =>
    rw [splitSeps]
    · rw [if_pos hdash]
      simp [List.isPrefixOf]
    · exact hno
  | case4 c rest hno hdash ih =>
    rw [splitSeps]
    · rw [if_neg hdash]
      simp only [List.headD_cons]
      show (c :: ((splitSeps rest).headD "").data).isPrefixOf (c :: rest) = true
      simp only [List.isPrefixOf, beq_self_eq_true, Bool.true_and]
      exact ih
    · exact hno

/-- The first piece of the split contains no separator: no en dash, no
hyphen, no "to" pair. -/
lemma splitSeps_head_noSep : ∀ cs : List Char,
    infixOfAux "–".data (((splitSeps cs).headD "").data) = false ∧
    infixOfAux "-".data (((splitSeps cs).headD "").data) = false ∧
    infixOfAux "to".data (((splitSeps cs).headD "").data) = false := by
  intro cs
  induction cs using splitSeps.induct with
  | case1 => decide
  | case2 rest ih => simp [splitSeps]; decide
  | case3 c rest hno hdash ih =>
    rw [splitSeps]
    · rw [if_pos hdash]
      simp only [List.headD_cons]
      decide
    · exact hno
  | case4 c rest hno hdash ih =>
    have hcne1 : c ≠ '–' := by rintro rfl; simp at hdash
    have hcne2 : c ≠ '-' := by rintro rfl; simp at hdash
    rw [splitSeps]
    · rw [if_neg hdash]
      simp only [List.headD_cons]
      show infixOfAux "–".data (c :: ((splitSeps rest).headD "").data) = false ∧ _ ∧ _
      obtain ⟨ih1, ih2, ih3⟩ := ih
      have hpre := splitSeps_head_leads rest
      refine ⟨?_, ?_, ?_⟩
      · show (("–".data).isPrefixOf (c :: _) || infixOfAux "–".data _) = false
        rw [ih1]
        simp [List.isPrefixOf]
        intro hc
        exact hcne1 hc.symm
      · show (("-".data).isPrefixOf (c :: _) || infixOfAux "-".data _) = false
        rw [ih2]
        simp [List.isPrefixOf]
        intro hc
        exact hcne2 hc.symm
      · show (("to".data).isPrefixOf (c :: _) || infixOfAux "to".data _) = false
        rw [ih3]
        simp only [Bool.or_false]
        cases hd : ((splitSeps rest).headD "").data with
        | nil => simp [List.isPrefixOf]
        | cons d ds =>
          simp only [List.isPrefixOf, Bool.and_eq_false_iff]
          by_cases hct : c = 't'
          · right
            subst hct
            rw [hd] at hpre
            cases rest with
            | nil => simp [List.isPrefixOf] at hpre
            | cons e es =>
              simp only [List.isPrefixOf, Bool.and_eq_true, beq_iff_eq] at hpre
              have hde : d = e := hpre.1
              have hne : e ≠ 'o' := by
                intro he
                exact hno es rfl (by rw [he])
              subst hde
              simp [List.isPrefixOf, Bool.and_eq_false_iff]
              intro hh
              exact hne hh.symm
          · left
            simpa using fun h => absurd h.symm hct
    · exact hno

/-- The time-range shape the specification's regex `^.+ to .+$` describes:
a non-empty prefix, the literal " to ", a non-empty tail. -/
def RangeForm (s : String) : Prop :=
  ∃ a b : String, s = a ++ " to " ++ b ∧ a ≠ "" ∧ b ≠ ""

/-- A bare time token: non-empty and free of all three separators — the
shape `normalizeTimes` emits when the split has a first but no second
non-empty token. -/
def BareToken (s : String) : Prop :=
  s ≠ "" ∧ containsSub s "–" = false ∧ containsSub s "-" = false ∧
  containsSub s "to" = false

/-- The shapes an hours field can take: the specification's four forms
plus the bare token the code also emits. -/
def HoursField (s : String) : Prop :=
  s = "-" ∨ s = "Closed" ∨ s = "Open 24 hours" ∨ RangeForm s ∨ BareToken s

/-- A pattern found in the stripped string occurs in the original. -/
lemma containsSub_pyStrip_true (s pat : String)
    (h : containsSub (pyStrip s) pat = true) : containsSub s pat = true := by
  obtain ⟨l, r, hlr⟩ := stripSet_within isPySpace s.data
  unfold containsSub at h ⊢
  rw [hlr]
  exact infixOfAux_mono _ l r _ h

/-- Every output of the hours-text normalization takes one of the five
shapes. -/
lemma normalizeTimes_form (t : String) : HoursField (normalizeTimes t) := by
  unfold normalizeTimes
  dsimp only
  split
  · right; right; left; rfl
  · split
    · right; left; rfl
    · split
      · rename_i hcond
        simp only [Bool.and_eq_true, decide_eq_true_eq] at hcond
        right; right; right; left
        exact ⟨_, _, rfl, hcond.1, hcond.2⟩
      · split
        · rename_i hopen
          right; right; right; right
          refine ⟨hopen, ?_, ?_, ?_⟩
          · cases hq : containsSub (pyStrip ((splitSeps t.data).headD "")) "–" with
            | false => rfl
            | true =>
              have h2 : infixOfAux "–".data ((splitSeps t.data).headD "").data = true :=
                containsSub_pyStrip_true _ _ hq
              rw [(splitSeps_head_noSep t.data).1] at h2
              exact absurd h2 (by simp)
          · cases hq : containsSub (pyStrip ((splitSeps t.data).headD "")) "-" with
            | false => rfl
            | true =>
              have h2 : infixOfAux "-".data ((splitSeps t.data).headD "").data = true :=
                containsSub_pyStrip_true _ _ hq
              rw [(splitSeps_head_noSep t.data).2.1] at h2
              exact absurd h2 (by simp)
          · cases hq : containsSub (pyStrip ((splitSeps t.data).headD "")) "to" with
            | false => rfl
            | true =>
              have h2 : infixOfAux "to".data ((splitSeps t.data).headD "").data = true :=
                containsSub_pyStrip_true _ _ hq
              rw [(splitSeps_head_noSep t.data).2.2] at h2
              exact absurd h2 (by simp)
        · left; rfl

/-- The seven day fields of a record, Monday first. -/
def dayFieldsOf (p : Place) : List String :=
  [p.monday_hours, p.tuesday_hours, p.wednesday_hours, p.thursday_hours,
   p.friday_hours, p.saturday_hours, p.sunday_hours]

/-- Setting one day leaves every day field either the new value or an old
field. -/
lemma setDay_fields_sub (p : Place) (key v : String) :
    ∀ s ∈ dayFieldsOf (setDay p key v), s = v ∨ s ∈ dayFieldsOf p := by
  unfold setDay
  split_ifs <;> (intro s hs; simp [dayFieldsOf] at hs ⊢; tauto)

/-- Every day field of the parsed record takes one of the five shapes. -/
lemma parse_weekly_hours_form (rows : List (String × String)) (place : Place) :
    ∀ s ∈ dayFieldsOf (parse_weekly_hours rows place), HoursField s := by
  unfold parse_weekly_hours
  generalize hq : ({ place with
    monday_hours := "-", tuesday_hours := "-", wednesday_hours := "-",
    thursday_hours := "-", friday_hours := "-", saturday_hours := "-",
    sunday_hours := "-" } : Place) = q
  have hq0 : ∀ s ∈ dayFieldsOf q, HoursField s := by
    intro s hs
    rw [← hq] at hs
    simp [dayFieldsOf] at hs
    subst hs
    left
    rfl
  clear hq
  induction rows generalizing q with
  | nil => simpa using hq0
  | cons row rest ih =>
    simp only [List.foldl_cons]
    apply ih
    cases hf : dayKeys.find? (fun d => containsSub (pyLower (pyStrip row.1)) d) with
    | none => simpa [hf] using hq0
    | some key =>
      simp only [hf]
      intro s hs
      rcases setDay_fields_sub q key (normalizeTimes (pyStrip row.2)) s hs with h | h
      · subst h; exact normalizeTimes_form _
      · exact hq0 s h

/-- A non-empty string has positive length. -/
lemma length_pos_of_ne_empty (s : String) (h : s ≠ "") : 0 < s.length := by
  cases s with
  | mk data =>
    cases data with
    | nil => exact absurd rfl h
    | cons c t =>
      show 0 < (c :: t).length
      simp

/-- C3 counterexample: a row whose hours text is a single token with no
separator — here "9 AM" — is stored bare, and the bare token is none of
the four claimed forms "-", "Closed", "Open 24 hours", `^.+ to .+$`. -/
theorem C3_bare_token_counterexample :
    (parse_weekly_hours [("monday", "9 AM")] emptyPlace).monday_hours = "9 AM" ∧
    ¬("9 AM" = "-" ∨ "9 AM" = "Closed" ∨ "9 AM" = "Open 24 hours" ∨ RangeForm "9 AM") := by
  constructor
  · decide
  · rintro (h | h | h | ⟨a, b, hab, ha, hb⟩)
    · exact absurd h (by decide)
    · exact absurd h (by decide)
    · exact absurd h (by decide)
    · have hl := congrArg String.length hab
      rw [String.length_append, String.length_append] at hl
      have h1 : ("9 AM").length = 4 := rfl
      have h2 : (" to ").length = 4 := rfl
      have h3 := length_pos_of_ne_empty a ha
      have h4 := length_pos_of_ne_empty b hb
      omega

/-- C3 (amended): for every input to the hours parser, each of the seven
day fields is exactly one of: the placeholder "-", the literal "Closed",
the literal "Open 24 hours", a string matching `^.+ to .+$`, or a bare
non-empty time token containing none of the separators (en dash, hyphen,
"to") — the value the code stores when the split yields only one
non-empty token. -/
theorem C3_hours_fields_forms (rows : List (String × String)) (place : Place) :
    ∀ s ∈ dayFieldsOf (parse_weekly_hours rows place),
      s = "-" ∨ s = "Closed" ∨ s = "Open 24 hours" ∨ RangeForm s ∨ BareToken s :=
  parse_weekly_hours_form rows place

/-- The first-seen accumulation only appends. -/
lemma firstSeenAux_append : ∀ (l acc : List String), ∃ r, firstSeenAux acc l = acc ++ r := by
  intro l
  induction l with
  | nil => intro acc; exact ⟨[], by simp [firstSeenAux]⟩
  | cons h t ih =>
    intro acc
    rw [firstSeenAux]
    split
    · obtain ⟨r, hr⟩ := ih (acc ++ [h])
      exact ⟨[h] ++ r, by rw [hr]; simp⟩
    · exact ih acc

/-- With a positive cap not yet reached, and enough distinct hrefs in
the scan, the card collection yields exactly the first `N` of the
first-seen sequence. -/
lemma collectCards_take (N : Nat) (hN : 0 < N) :
    ∀ (cards urls : List String) (a : Nat), urls.length < N →
      N ≤ (firstSeenAux urls cards).length →
      (collectCards N cards urls a).1 = (firstSeenAux urls cards).take N := by
  intro cards
  induction cards with
  | nil =>
    intro urls a hlt hge
    rw [firstSeenAux] at hge
    omega
  | cons h t ih =>
    intro urls a hlt hge
    rw [firstSeenAux] at hge
    rw [collectCards, firstSeenAux]
    by_cases hc : (decide (h ≠ "") && !(urls.contains h)) = true
    · simp only [if_pos hc] at hge ⊢
      by_cases hcap : N ≤ (urls ++ [h]).length
      · have hlen : (urls ++ [h]).length = N := by
          simp only [List.length_append, List.length_cons, List.length_nil] at hcap ⊢
          omega
        rw [if_pos (by simp only [Bool.and_eq_true, decide_eq_true_eq]; exact ⟨hN, hcap⟩)]
        obtain ⟨r, hr⟩ := firstSeenAux_append t (urls ++ [h])
        rw [hr, ← hlen, List.take_left]
      · rw [if_neg (by
          simp only [Bool.and_eq_true, decide_eq_true_eq, not_and]
          intro _
          exact hcap)]
        apply ih
        · simp only [List.length_append, List.length_cons, List.length_nil] at hcap ⊢
          omega
        · exact hge
    · simp only [if_neg hc] at hge ⊢
      exact ih urls a hlt hge

/-- The first-seen sequence never holds duplicates. -/
lemma firstSeenAux_nodup : ∀ (l acc : List String), acc.Nodup → (firstSeenAux acc l).Nodup := by
  intro l
  induction l with
  | nil => intro acc h; simpa [firstSeenAux] using h
  | cons h t ih =>
    intro acc hacc
    rw [firstSeenAux]
    split
    · rename_i hc
      apply ih
      have hmem : ¬ h ∈ acc := by
        have := (Bool.and_eq_true _ _ |>.mp hc).2
        simpa using this
      simp [List.nodup_append, hacc, hmem]
    · exact ih acc hacc

/-- First-seen accumulation over a concatenation proceeds in stages. -/
lemma firstSeenAux_concat : ∀ (l1 l2 acc : List String),
    firstSeenAux acc (l1 ++ l2) = firstSeenAux (firstSeenAux acc l1) l2 := by
  intro l1
  induction l1 with
  | nil => intro l2 acc; rfl
  | cons h t ih =>
    intro l2 acc
    show firstSeenAux acc (h :: (t ++ l2)) = _
    rw [firstSeenAux]
    by_cases hc : (decide (h ≠ "") && !(acc.contains h)) = true
    · rw [if_pos hc,
        show firstSeenAux acc (h :: t) = firstSeenAux (acc ++ [h]) t from by
          rw [firstSeenAux, if_pos hc]]
      exact ih l2 (acc ++ [h])
    · rw [if_neg hc,
        show firstSeenAux acc (h :: t) = firstSeenAux acc t from by
          rw [firstSeenAux, if_neg hc]]
      exact ih l2 acc

/-- A scan that never reaches the cap collects exactly the first-seen
continuation of the accumulated list, counting the additions. -/
lemma collectCards_under (N : Nat) :
    ∀ (cards urls : List String) (a : Nat),
      (firstSeenAux urls cards).length < N →
      collectCards N cards urls a =
        (firstSeenAux urls cards, a + ((firstSeenAux urls cards).length - urls.length)) := by
  intro cards
  induction cards with
  | nil =>
    intro urls a _
    simp [collectCards, firstSeenAux]
  | cons h t ih =>
    intro urls a hlt
    rw [firstSeenAux] at hlt ⊢
    rw [collectCards]
    by_cases hc : (decide (h ≠ "") && !(urls.contains h)) = true
    · simp only [if_pos hc] at hlt ⊢
      obtain ⟨r, hr⟩ := firstSeenAux_append t (urls ++ [h])
      have hge : (urls ++ [h]).length ≤ (firstSeenAux (urls ++ [h]) t).length := by
        rw [hr]
        simp
      have hcap : ¬ ((decide (0 < N) && decide (N ≤ (urls ++ [h]).length)) = true) := by
        simp only [Bool.and_eq_true, decide_eq_true_eq, not_and]
        intro _
        omega
      show (if (decide (0 < N) && decide (N ≤ (urls ++ [h]).length)) = true
          then (urls ++ [h], a + 1) else collectCards N t (urls ++ [h]) (a + 1)) = _
      rw [if_neg hcap, ih (urls ++ [h]) (a + 1) hlt]
      have hl : (urls ++ [h]).length = urls.length + 1 := by simp
      have he : a + 1 + ((firstSeenAux (urls ++ [h]) t).length - (urls ++ [h]).length)
          = a + ((firstSeenAux (urls ++ [h]) t).length - urls.length) := by
        rw [hl] at hge ⊢
        omega
      rw [he]
    · simp only [if_neg hc] at hlt ⊢
      exact ih urls a hlt

/-- The cumulative first-seen sequence of the feed only ever extends. -/
lemma firstSeen_shown_extend (cards : Nat → List String) :
    ∀ (t k : Nat), ∃ r,
      firstSeen (feedShown cards (t + k)) = firstSeen (feedShown cards t) ++ r := by
  intro t k
  induction k with
  | zero => exact ⟨[], by simp⟩
  | succ k ih =>
    obtain ⟨r, hr⟩ := ih
    show ∃ r2, firstSeenAux [] (feedShown cards (t + k) ++ cards (t + k)) = _
    rw [firstSeenAux_concat]
    obtain ⟨r2, hr2⟩ :=
      firstSeenAux_append (cards (t + k)) (firstSeenAux [] (feedShown cards (t + k)))
    refine ⟨r ++ r2, ?_⟩
    rw [hr2]
    show firstSeen (feedShown cards (t + k)) ++ r2 = _
    rw [hr, List.append_assoc]

/-- Once at least `N` unique references have been exposed, the first `N`
of the cumulative first-seen sequence never change again. -/
lemma firstSeen_shown_take_eq (cards : Nat → List String) (N a b : Nat)
    (ha : N ≤ (firstSeen (feedShown cards a)).length)
    (hb : N ≤ (firstSeen (feedShown cards b)).length) :
    (firstSeen (feedShown cards a)).take N = (firstSeen (feedShown cards b)).take N := by
  rcases Nat.le_total a b with hab | hba
  · obtain ⟨k, rfl⟩ : ∃ k, b = a + k := ⟨b - a, by omega⟩
    obtain ⟨r, hr⟩ := firstSeen_shown_extend cards a k
    rw [hr]
    exact (List.take_append_of_le_length ha).symm
  · obtain ⟨k, rfl⟩ : ∃ k, a = b + k := ⟨a - b, by omega⟩
    obtain ⟨r, hr⟩ := firstSeen_shown_extend cards b k
    rw [hr]
    exact List.take_append_of_le_length hb

/-- A feed whose scans are empty from round `T` on shows nothing new. -/
lemma feedShown_stable (cards : Nat → List String) (T : Nat)
    (hnil : ∀ t, T ≤ t → cards t = []) :
    ∀ k, feedShown cards (T + k) = feedShown cards T := by
  intro k
  induction k with
  | zero => rfl
  | succ k ih =>
    show feedShown cards (T + k) ++ cards (T + k) = _
    rw [ih, hnil (T + k) (by omega), List.append_nil]

/-- One unrolled iteration of the gathering loop under a positive cap
`M + 1` with the stop flag clear: scan, break when the cap is reached,
otherwise run the stale-round block. -/
lemma gatherN_step (feed : Feed) (M f t n : Nat) (urls : List String)
    (hstop : feed.stop t = false) :
    gatherListingUrls (M + 1) feed (f + 1) t urls n =
      (if M + 1 ≤ (collectCards (M + 1) (feed.cards t) urls 0).1.length then
        some (collectCards (M + 1) (feed.cards t) urls 0).1
      else if (collectCards (M + 1) (feed.cards t) urls 0).2 = 0 then
        if 5 ≤ n + 1 then
          if feed.nextPage t then
            gatherListingUrls (M + 1) feed f (t + 1)
              (collectCards (M + 1) (feed.cards t) urls 0).1 0
          else some (collectCards (M + 1) (feed.cards t) urls 0).1
        else gatherListingUrls (M + 1) feed f (t + 1)
          (collectCards (M + 1) (feed.cards t) urls 0).1 (n + 1)
      else gatherListingUrls (M + 1) feed f (t + 1)
        (collectCards (M + 1) (feed.cards t) urls 0).1 0) := by
  rw [gatherListingUrls]
  simp only [hstop, Bool.false_eq_true, if_false]
  norm_num

/-- While fewer than `M + 1` unique references have accumulated, a feed
exposing a new reference in every scan drives the loop forward with the
cumulative first-seen list as its state, until some round's scan reaches
the cap and the loop returns its first `M + 1` entries. -/
lemma gather_prog (feed : Feed) (M : Nat)
    (hstop : ∀ t, feed.stop t = false)
    (hprog : ∀ t, (firstSeen (feedShown feed.cards t)).length < M + 1 →
      (firstSeen (feedShown feed.cards t)).length <
        (firstSeen (feedShown feed.cards (t + 1))).length) :
    ∀ (fuel t n : Nat),
      (firstSeen (feedShown feed.cards t)).length < M + 1 →
      M + 1 ≤ fuel + (firstSeen (feedShown feed.cards t)).length →
      ∃ m, M + 1 ≤ (firstSeen (feedShown feed.cards m)).length ∧
        gatherListingUrls (M + 1) feed fuel t (firstSeen (feedShown feed.cards t)) n =
          some ((firstSeen (feedShown feed.cards m)).take (M + 1)) := by
  intro fuel
  induction fuel with
  | zero => intro t n hlt hge; omega
  | succ f ih =>
    intro t n hlt hge
    have hnext : firstSeen (feedShown feed.cards (t + 1)) =
        firstSeenAux (firstSeen (feedShown feed.cards t)) (feed.cards t) := by
      show firstSeenAux [] (feedShown feed.cards t ++ feed.cards t) = _
      rw [firstSeenAux_concat]
      rfl
    rw [gatherN_step feed M f t n _ (hstop t)]
    by_cases hcap :
        M + 1 ≤ (firstSeenAux (firstSeen (feedShown feed.cards t)) (feed.cards t)).length
    · have hscan := collectCards_take (M + 1) (by omega) (feed.cards t)
        (firstSeen (feedShown feed.cards t)) 0 hlt hcap
      refine ⟨t + 1, by rw [hnext]; exact hcap, ?_⟩
      rw [hscan, if_pos (by rw [List.length_take]; omega), hnext]
    · push_neg at hcap
      have hunder := collectCards_under (M + 1) (feed.cards t)
        (firstSeen (feedShown feed.cards t)) 0 hcap
      have hgrow := hprog t hlt
      rw [hnext] at hgrow
      rw [hunder]
      rw [if_neg (by simp only [List.length_take]; omega)]
      rw [if_neg (by simp only []; omega)]
      rw [show (firstSeenAux (firstSeen (feedShown feed.cards t)) (feed.cards t),
          0 + ((firstSeenAux (firstSeen (feedShown feed.cards t)) (feed.cards t)).length -
            (firstSeen (feedShown feed.cards t)).length)).1 =
          firstSeenAux (firstSeen (feedShown feed.cards t)) (feed.cards t) from rfl]
      rw [← hnext]
      exact ih (t + 1) 0 (by rw [hnext]; omega) (by rw [hnext]; omega)

/-- C1 (amended): for every run with `max_listings = N > 0` against a
feed that exposes at least one not-yet-seen listing reference in each
scan for as long as fewer than `N` unique references have accumulated,
and at least `N` unique references within `K` rounds, the discovery loop
terminates (with fuel for `N` rounds) with exactly the first `N`
references in order of first appearance across the scans — `N` of them,
duplicate-free.  The progress condition cannot be dropped: after five
scans with nothing new and one failed pagination attempt the loop stops
with fewer, as the stale counterexample shows. -/
theorem C1_progress_cap_exact_firstseen (feed : Feed) (N K fuel : Nat)
    (hN : 0 < N)
    (hstop : ∀ t, feed.stop t = false)
    (hexp : N ≤ (firstSeen (feedShown feed.cards K)).length)
    (hprog : ∀ t, (firstSeen (feedShown feed.cards t)).length < N →
      (firstSeen (feedShown feed.cards t)).length <
        (firstSeen (feedShown feed.cards (t + 1))).length)
    (hfuel : N ≤ fuel) :
    gatherListingUrls N feed fuel 0 [] 0 =
      some ((firstSeen (feedShown feed.cards K)).take N) ∧
    ((firstSeen (feedShown feed.cards K)).take N).length = N ∧
    ((firstSeen (feedShown feed.cards K)).take N).Nodup := by
  obtain ⟨M, rfl⟩ : ∃ M, N = M + 1 := ⟨N - 1, by omega⟩
  have h0 : firstSeen (feedShown feed.cards 0) = [] := rfl
  have hlt0 : (firstSeen (feedShown feed.cards 0)).length < M + 1 := by
    rw [h0]
    simp
  have hge0 : M + 1 ≤ fuel + (firstSeen (feedShown feed.cards 0)).length := by
    rw [h0]
    simp only [List.length_nil]
    omega
  obtain ⟨m, hm, hrun⟩ := gather_prog feed M hstop hprog fuel 0 0 hlt0 hge0
  rw [h0] at hrun
  have htake : (firstSeen (feedShown feed.cards m)).take (M + 1) =
      (firstSeen (feedShown feed.cards K)).take (M + 1) :=
    firstSeen_shown_take_eq feed.cards (M + 1) m K hm hexp
  refine ⟨by rw [hrun, htake], ?_, ?_⟩
  · rw [List.length_take]
    omega
  · exact List.Nodup.sublist (List.take_sublist _ _)
      (firstSeenAux_nodup (feedShown feed.cards K) [] (by simp))

/-- A feed for the C1 counterexample: one reference in the first scan,
a second one only at round 6, nothing in between — five consecutive
scans with nothing new. -/
def feedC1stale : Feed where
  stop := fun _ => false
  cards := fun t => if t = 0 then ["a"] else if t = 6 then ["b"] else []
  nextPage := fun _ => false

/-- The unqualified C1 is false of the program: this feed exposes two
unique references (within seven rounds), yet the run with
`max_listings = 2` gives up after five scans with nothing new and one
failed pagination attempt, returning a single reference — also with any
larger fuel, since the loop has already broken out. -/
theorem C1_stale_counterexample :
    2 ≤ (firstSeen (feedShown feedC1stale.cards 7)).length ∧
    gatherListingUrls 2 feedC1stale 6 0 [] 0 = some ["a"] ∧
    gatherListingUrls 2 feedC1stale 100 0 [] 0 = some ["a"] ∧
    (["a"] : List String).length = 1 := by
  decide

/-- A feed for the C1 witness: each of the first two scans exposes new
references, with duplicates across scans. -/
def feedC1prog : Feed where
  stop := fun _ => false
  cards := fun t => if t = 0 then ["a", "b", "a"] else if t = 1 then ["a", "c", "d"] else []
  nextPage := fun _ => false

/-- Witness for the amended C1: cap 3 over the scans a, b, a then
a, c, d collects exactly a, b, c. -/
theorem C1_progress_cap_exact_firstseen_witness :
    gatherListingUrls 3 feedC1prog 3 0 [] 0 = some ["a", "b", "c"] := by
  have h := C1_progress_cap_exact_firstseen feedC1prog 3 2 3 (by decide)
    (fun _ => rfl) (by decide)
    (by
      intro t ht
      rcases t with _ | t
      · decide
      · rcases t with _ | k
        · decide
        · exfalso
          have hs : feedShown feedC1prog.cards (2 + k) = feedShown feedC1prog.cards 2 :=
            feedShown_stable feedC1prog.cards 2 (by
              intro u hu
              rcases u with _ | u
              · omega
              · rcases u with _ | u
                · omega
                · rfl) k
          rw [show k + 1 + 1 = 2 + k from by omega, hs] at ht
          exact absurd ht (by decide))
    (by decide)
  rw [h.1]
  decide

/-- A scan whose every href is empty or already collected changes
nothing. -/
lemma collectCards_stale (maxL : Nat) :
    ∀ (cards urls : List String) (a : Nat),
      (∀ h ∈ cards, h = "" ∨ h ∈ urls) →
      collectCards maxL cards urls a = (urls, a) := by
  intro cards
  induction cards with
  | nil => intro urls a _; rfl
  | cons h t ih =>
    intro urls a hst
    rw [collectCards]
    have hcond : ¬((decide (h ≠ "") && !(urls.contains h)) = true) := by
      rcases hst h (by simp) with he | hm
      · simp [he]
      · simp [hm]
    rw [if_neg hcond]
    exact ih urls a (fun x hx => hst x (by simp [hx]))

/-- The card collection never drops a collected reference. -/
lemma collectCards_mem (maxL : Nat) :
    ∀ (cards urls : List String) (a : Nat) (h : String),
      h ∈ urls → h ∈ (collectCards maxL cards urls a).1 := by
  intro cards
  induction cards with
  | nil => intro urls a h hm; exact hm
  | cons c t ih =>
    intro urls a h hm
    rw [collectCards]
    by_cases hc : (decide (c ≠ "") && !(urls.contains c)) = true
    · rw [if_pos hc]
      show h ∈ (if (decide (0 < maxL) && decide (maxL ≤ (urls ++ [c]).length)) = true
          then (urls ++ [c], a + 1) else collectCards maxL t (urls ++ [c]) (a + 1)).1
      split
      · simp [hm]
      · exact ih (urls ++ [c]) (a + 1) h (by simp [hm])
    · rw [if_neg hc]
      exact ih urls a h hm

/-- With no cap, every non-empty scanned href ends up collected. -/
lemma collectCards0_covers :
    ∀ (cards urls : List String) (a : Nat),
      ∀ h ∈ cards, h = "" ∨ h ∈ (collectCards 0 cards urls a).1 := by
  intro cards
  induction cards with
  | nil => intro urls a h hm; simp at hm
  | cons c t ih =>
    intro urls a h hm
    rw [collectCards]
    rcases List.mem_cons.mp hm with rfl | hmt
    · by_cases hc : (decide (h ≠ "") && !(urls.contains h)) = true
      · rw [if_pos hc]
        rw [if_neg (by simp)]
        right
        exact collectCards_mem 0 t (urls ++ [h]) (a + 1) h (by simp)
      · rw [if_neg hc]
        have hor : h = "" ∨ h ∈ urls := by
          by_cases he : h = ""
          · exact Or.inl he
          · right
            by_contra hmem
            exact hc (by simp [he, hmem])
        rcases hor with he | hm2
        · exact Or.inl he
        · exact Or.inr (collectCards_mem 0 t urls a h hm2)
    · by_cases hc : (decide (c ≠ "") && !(urls.contains c)) = true
      · rw [if_pos hc]
        rw [if_neg (by simp)]
        exact ih (urls ++ [c]) (a + 1) h hmt
      · rw [if_neg hc]
        exact ih urls a h hmt

/-- One unfolding step of the gathering loop in unlimited mode with the
stop flag down: the cap checks vanish and the stale-round logic remains. -/
lemma gather_step0 (feed : Feed) (f t n : Nat) (urls : List String)
    (hstop : feed.stop t = false) :
    gatherListingUrls 0 feed (f + 1) t urls n =
      (if (collectCards 0 (feed.cards t) urls 0).2 = 0 then
        if 5 ≤ n + 1 then
          if feed.nextPage t then
            gatherListingUrls 0 feed f (t + 1) (collectCards 0 (feed.cards t) urls 0).1 0
          else some (collectCards 0 (feed.cards t) urls 0).1
        else gatherListingUrls 0 feed f (t + 1) (collectCards 0 (feed.cards t) urls 0).1 (n + 1)
      else gatherListingUrls 0 feed f (t + 1) (collectCards 0 (feed.cards t) urls 0).1 0) := by
  rw [gatherListingUrls]
  simp only [hstop, Bool.false_eq_true, if_false]
  norm_num

/-- Once every future scan is stale, the unlimited loop pages after the
stale counter reaches 5, and the failing pagination ends it with the
collected list unchanged; `5 - n` rounds of fuel suffice. -/
lemma gather_stale (feed : Feed)
    (hstop : ∀ t, feed.stop t = false)
    (hpag : ∀ t, feed.nextPage t = false) :
    ∀ (fuel t n : Nat) (urls : List String),
      (∀ t2, t ≤ t2 → ∀ h ∈ feed.cards t2, h = "" ∨ h ∈ urls) →
      5 ≤ fuel + n → 1 ≤ fuel →
      gatherListingUrls 0 feed fuel t urls n = some urls := by
  intro fuel
  induction fuel with
  | zero => intro t n urls _ _ h1; omega
  | succ f ih =>
    intro t n urls hstale hfn _
    have hscan : collectCards 0 (feed.cards t) urls 0 = (urls, 0) :=
      collectCards_stale 0 (feed.cards t) urls 0 (hstale t (le_refl t))
    rw [gather_step0 feed f t n urls (hstop t), hscan]
    by_cases h5 : 5 ≤ n + 1
    · rw [if_pos rfl, if_pos h5, hpag t]
      simp
    · rw [if_pos rfl, if_neg h5]
      apply ih (t + 1) (n + 1) urls
      · intro t2 ht2
        exact hstale t2 (by omega)
      · omega
      · omega

/-- A reference of the feed's prefix comes from some round before `K`. -/
lemma feedShown_mem (cards : Nat → List String) :
    ∀ (K : Nat) (h : String), h ∈ feedShown cards K → ∃ t, t < K ∧ h ∈ cards t := by
  intro K
  induction K with
  | zero => intro h hm; simp [feedShown] at hm
  | succ k ih =>
    intro h hm
    rw [feedShown] at hm
    rcases List.mem_append.mp hm with hm1 | hm2
    · obtain ⟨t, ht, hmt⟩ := ih h hm1
      exact ⟨t, by omega, hmt⟩
    · exact ⟨k, by omega, hm2⟩

/-- Main induction for C6: from round `t ≤ K` with everything before `t`
collected, the unlimited loop reaches an answer within `(K - t) + 5`
rounds. -/
lemma gather_unlimited (feed : Feed) (K : Nat)
    (hstop : ∀ t, feed.stop t = false)
    (hpag : ∀ t, feed.nextPage t = false)
    (hK : ∀ t, K ≤ t → ∀ h ∈ feed.cards t, h = "" ∨ h ∈ feedShown feed.cards K) :
    ∀ (fuel t n : Nat) (urls : List String), t ≤ K →
      (∀ t2, t2 < t → ∀ h ∈ feed.cards t2, h = "" ∨ h ∈ urls) →
      K + 5 ≤ fuel + t →
      ∃ us, gatherListingUrls 0 feed fuel t urls n = some us := by
  intro fuel
  induction fuel with
  | zero => intro t n urls htK _ hb; omega
  | succ f ih =>
    intro t n urls htK hcoll hb
    by_cases hteq : t = K
    · refine ⟨urls, gather_stale feed hstop hpag (f + 1) t n urls ?_ (by omega) (by omega)⟩
      intro t2 ht2 h hh
      rcases hK t2 (by omega) h hh with he | hm
      · exact Or.inl he
      · obtain ⟨t3, ht3, hm3⟩ := feedShown_mem feed.cards K h hm
        exact hcoll t3 (by omega) h hm3
    · have htlt : t < K := lt_of_le_of_ne htK hteq
      have hcoll2 : ∀ t2, t2 < t + 1 → ∀ h ∈ feed.cards t2,
          h = "" ∨ h ∈ (collectCards 0 (feed.cards t) urls 0).1 := by
        intro t2 h2 h hh
        rcases Nat.lt_succ_iff_lt_or_eq.mp h2 with hlt | heq
        · rcases hcoll t2 hlt h hh with he | hm
          · exact Or.inl he
          · exact Or.inr (collectCards_mem 0 (feed.cards t) urls 0 h hm)
        · rw [heq] at hh
          exact collectCards0_covers (feed.cards t) urls 0 h hh
      by_cases ha : (collectCards 0 (feed.cards t) urls 0).2 = 0
      · by_cases h5 : 5 ≤ n + 1
        · by_cases hpg : feed.nextPage t = true
          · rw [hpag t] at hpg
            exact absurd hpg (by simp)
          · refine ⟨(collectCards 0 (feed.cards t) urls 0).1, ?_⟩
            rw [gather_step0 feed f t n urls (hstop t), if_pos ha, if_pos h5, hpag t]
            simp
        · obtain ⟨us, hus⟩ := ih (t + 1) (n + 1) (collectCards 0 (feed.cards t) urls 0).1
            (by omega) hcoll2 (by omega)
          refine ⟨us, ?_⟩
          rw [gather_step0 feed f t n urls (hstop t), if_pos ha, if_neg h5]
          exact hus
      · obtain ⟨us, hus⟩ := ih (t + 1) 0 (collectCards 0 (feed.cards t) urls 0).1
          (by omega) hcoll2 (by omega)
        refine ⟨us, ?_⟩
        rw [gather_step0 feed f t n urls (hstop t), if_neg ha]
        exact hus

/-- C6: for every run with `max_listings = 0` against a feed that exposes
no reference outside what its first `K` rounds showed and whose
pagination never succeeds, the discovery loop terminates within `K` plus
the stale-round threshold (5) rounds — the final round holding the one
failing pagination attempt — returning the references collected up to
that point. -/
theorem C6_unlimited_stale_terminates (feed : Feed) (K : Nat)
    (hstop : ∀ t, feed.stop t = false)
    (hpag : ∀ t, feed.nextPage t = false)
    (hK : ∀ t, K ≤ t → ∀ h ∈ feed.cards t, h = "" ∨ h ∈ feedShown feed.cards K) :
    ∃ us, gatherListingUrls 0 feed (K + 5) 0 [] 0 = some us := by
  apply gather_unlimited feed K hstop hpag hK (K + 5) 0 0 [] (by omega)
  · intro t2 ht2
    omega
  · omega

/-- A concrete constant feed for the C6 witness: one reference, new only
in round 0 (so `K = 1`), pagination always failing. -/
def feedC6 : Feed :=
  { stop := fun _ => false, cards := fun _ => ["a"], nextPage := fun _ => false }

/-- Witness for C6: with `K = 1` the loop ends within 6 rounds holding
exactly the one reference. -/
theorem C6_unlimited_stale_terminates_witness :
    (∃ us, gatherListingUrls 0 feedC6 6 0 [] 0 = some us) ∧
    gatherListingUrls 0 feedC6 6 0 [] 0 = some ["a"] := by
  constructor
  · exact C6_unlimited_stale_terminates feedC6 1 (fun _ => rfl) (fun _ => rfl)
      (by intro t ht h hh; right; simpa [feedShown] using hh)
  · decide

/-- Full characterization of the extraction loop from any starting index
and accumulator: it appends the records of a prefix of the links, every
ran iteration respects the cap, no iteration strictly before the last
observed the stop flag, and the loop ended because the links ran out,
the last iteration observed the flag, or the next iteration would exceed
the cap. -/
lemma extractionLoop_spec (maxL : Nat) (ui : String) (pv : Nat → PageView) (stop : Nat → Bool) :
    ∀ (links : List String) (idx : Nat) (places : List Place),
      ∃ m, m ≤ links.length ∧
        extractionLoop maxL ui pv stop links idx places =
          places ++ (links.take m).mapIdx
            (fun i l => extract_place (pv (idx + i)) ui (idx + i) l) ∧
        (0 < maxL → ∀ i, idx ≤ i → i < idx + m → i ≤ maxL) ∧
        (∀ i, idx ≤ i → i + 1 < idx + m → stopsDuring stop i = false) ∧
        (m = links.length ∨ (1 ≤ m ∧ stopsDuring stop (idx + m - 1) = true) ∨
          (0 < maxL ∧ maxL < idx + m)) := by
  intro links
  induction links with
  | nil =>
    intro idx places
    refine ⟨0, by simp, by simp [extractionLoop], ?_, ?_, Or.inl rfl⟩
    · intro _ i h1 h2
      omega
    · intro i h1 h2
      omega
  | cons l rest ih =>
    intro idx places
    rw [extractionLoop]
    by_cases hcap : (decide (0 < maxL) && decide (maxL < idx)) = true
    · rw [if_pos hcap]
      simp only [Bool.and_eq_true, decide_eq_true_eq] at hcap
      refine ⟨0, by simp, by simp, ?_, ?_, Or.inr (Or.inr (by omega))⟩
      · intro _ i h1 h2
        omega
      · intro i h1 h2
        omega
    · rw [if_neg hcap]
      have hcap2 : 0 < maxL → idx ≤ maxL := by
        intro hpos
        by_contra hgt
        exact hcap (by simp only [Bool.and_eq_true, decide_eq_true_eq]; omega)
      by_cases hs1 : stop (2 * (idx - 1)) = true
      · rw [if_pos hs1]
        refine ⟨1, by simp, ?_, ?_, ?_, Or.inr (Or.inl ⟨le_refl 1, ?_⟩)⟩
        · simp [List.mapIdx_cons]
        · intro hpos i h1 h2
          have : i = idx := by omega
          subst this
          exact hcap2 hpos
        · intro i h1 h2
          omega
        · have : idx + 1 - 1 = idx := by omega
          rw [this]
          simp [stopsDuring, hs1]
      · rw [if_neg hs1]
        by_cases hs2 : stop (2 * (idx - 1) + 1) = true
        · rw [if_pos hs2]
          refine ⟨1, by simp, ?_, ?_, ?_, Or.inr (Or.inl ⟨le_refl 1, ?_⟩)⟩
          · simp [List.mapIdx_cons]
          · intro hpos i h1 h2
            have : i = idx := by omega
            subst this
            exact hcap2 hpos
          · intro i h1 h2
            omega
          · have : idx + 1 - 1 = idx := by omega
            rw [this]
            simp [stopsDuring, hs2]
        · rw [if_neg hs2]
          obtain ⟨m2, hlen, heq, hcapr, hpol, hend⟩ := ih (idx + 1) (places ++ [extract_place (pv idx) ui idx l])
          refine ⟨m2 + 1, by simp; omega, ?_, ?_, ?_, ?_⟩
          · rw [heq]
            have hfe : (fun (i : Nat) (l2 : String) =>
                extract_place (pv (idx + 1 + i)) ui (idx + 1 + i) l2)
                = (fun (i : Nat) (l2 : String) =>
                  extract_place (pv (idx + (i + 1))) ui (idx + (i + 1)) l2) := by
              funext i l2
              rw [show idx + 1 + i = idx + (i + 1) by omega]
            rw [hfe]
            simp only [List.take_succ_cons, List.mapIdx_cons, Nat.add_zero,
              List.append_assoc, List.singleton_append]
          · intro hpos i h1 h2
            by_cases hi : i = idx
            · subst hi
              exact hcap2 hpos
            · exact hcapr hpos i (by omega) (by omega)
          · intro i h1 h2
            by_cases hi : i = idx
            · subst hi
              simp [stopsDuring, hs1, hs2]
            · exact hpol i (by omega) (by omega)
          · rcases hend with hlast | ⟨h1m, hsd⟩ | ⟨hpos, hlt⟩
            · exact Or.inl (by simp [hlast])
            · refine Or.inr (Or.inl ⟨by omega, ?_⟩)
              rw [show idx + (m2 + 1) - 1 = idx + 1 + m2 - 1 by omega]
              exact hsd
            · exact Or.inr (Or.inr ⟨hpos, by omega⟩)

/-- C7: if the stop predicate becomes true during the per-listing
extraction phase, the returned sequence holds exactly the records of the
listings whose extraction completed before the flag was observed — a
prefix of the gathered links mapped through `extract_place`, in order,
with no poll before the last completed iteration observing the flag — and
every returned record passed the full empty-string normalization (all
string fields non-empty).  No completed record is discarded and no
partially-populated record is included: the list is exactly that mapped
prefix. -/
theorem C7_stop_preserves_completed_records (maxL : Nat) (ui : String)
    (pv : Nat → PageView) (stop : Nat → Bool) (links : List String) :
    ∃ m, m ≤ links.length ∧
      extractionLoop maxL ui pv stop links 1 [] =
        (links.take m).mapIdx (fun i l => extract_place (pv (i + 1)) ui (i + 1) l) ∧
      (0 < maxL → m ≤ maxL) ∧
      (∀ i, 1 ≤ i → i + 1 < 1 + m → stopsDuring stop i = false) ∧
      (m = links.length ∨ (1 ≤ m ∧ stopsDuring stop m = true) ∨
        (0 < maxL ∧ maxL < 1 + m)) ∧
      (∀ p ∈ extractionLoop maxL ui pv stop links 1 [], PlaceStringsNonempty p) := by
  obtain ⟨m, hlen, heq, hcap, hpol, hend⟩ := extractionLoop_spec maxL ui pv stop links 1 []
  have hfe : (fun (i : Nat) (l : String) => extract_place (pv (1 + i)) ui (1 + i) l)
      = (fun (i : Nat) (l : String) => extract_place (pv (i + 1)) ui (i + 1) l) := by
    funext i l
    rw [Nat.add_comm 1 i]
  rw [hfe] at heq
  simp only [List.nil_append] at heq
  refine ⟨m, hlen, heq, ?_, hpol, ?_, ?_⟩
  · intro hpos
    cases Nat.eq_zero_or_pos m with
    | inl h0 => omega
    | inr hpos2 => exact hcap hpos m (by omega) (by omega)
  · rcases hend with h | ⟨h1, hsd⟩ | h
    · exact Or.inl h
    · refine Or.inr (Or.inl ⟨h1, ?_⟩)
      rw [show m = 1 + m - 1 by omega]
      exact hsd
    · exact Or.inr (Or.inr h)
  · intro p hp
    rw [heq] at hp
    rw [List.mapIdx_eq_enum_map] at hp
    obtain ⟨⟨i, a⟩, hm, hf⟩ := List.mem_map.mp hp
    rw [← hf]
    exact extract_place_nonempty _ _ _ _

/-- C10: the orchestrator clears the session stop flag at the boundary
between URL gathering and extraction (`flagAfterGather` is constantly
false), so when no fresh stop request arrives during extraction every
collected listing is extracted — the result length is the full gathered
count, capped only by `max_listings`; and because the extraction loop
polls the flag only after a listing is extracted and appended — never at
the top of an iteration — at least one listing completes extraction even
under a stop predicate that is already true, the head of the result being
exactly the first listing's record. -/
theorem C10_flag_cleared_then_extraction (maxL : Nat) (ui : String) (feed : Feed)
    (pv : Nat → PageView) (fuel : Nat) :
    (∀ b, flagAfterGather b = false) ∧
    (∀ (b : Bool) (urls : List String), gatherListingUrls maxL feed fuel 0 [] 0 = some urls →
      scrape_places_streamlit maxL ui feed b (fun _ => false) pv fuel =
        some (extractionLoop maxL ui pv (fun _ => false) urls 1 []) ∧
      (extractionLoop maxL ui pv (fun _ => false) urls 1 []).length =
        (if 0 < maxL then min urls.length maxL else urls.length)) ∧
    (∀ (stop : Nat → Bool) (l : String) (rest : List String),
      ∃ ps, extractionLoop maxL ui pv stop (l :: rest) 1 [] =
        extract_place (pv 1) ui 1 l :: ps) := by
  refine ⟨fun b => by cases b <;> rfl, ?_, ?_⟩
  · intro b urls hg
    have hres : (fun k => flagAfterGather b || (fun _ : Nat => false) k)
        = (fun _ : Nat => false) := by
      funext k
      cases b <;> rfl
    constructor
    · rw [scrape_places_streamlit, hg]
      cases b <;> rfl
    · obtain ⟨m, hlen, heq, hcap, hpol, hend⟩ :=
        extractionLoop_spec maxL ui pv (fun _ => false) urls 1 []
      have hm : m = (if 0 < maxL then min urls.length maxL else urls.length) := by
        rcases hend with h | ⟨h1, h2⟩ | ⟨hpos, hlt⟩
        · split
          · rename_i hpos
            have := hcap hpos
            by_cases hm0 : m = 0
            · omega
            · have := hcap hpos m (by omega) (by omega)
              omega
          · omega
        · simp [stopsDuring] at h2
        · have hmle : m ≤ maxL := by
            by_cases hm0 : m = 0
            · omega
            · exact hcap hpos m (by omega) (by omega)
          rw [if_pos hpos]
          omega
      rw [heq]
      simp only [List.nil_append, List.length_mapIdx, List.length_take]
      omega
  · intro stop l rest
    rw [extractionLoop]
    rw [if_neg (by
      simp only [Bool.and_eq_true, decide_eq_true_eq, not_and]
      intro _
      omega)]
    by_cases hs1 : stop (2 * (1 - 1)) = true
    · rw [if_pos hs1]
      exact ⟨[], by simp⟩
    · rw [if_neg hs1]
      by_cases hs2 : stop (2 * (1 - 1) + 1) = true
      · rw [if_pos hs2]
        exact ⟨[], by simp⟩
      · rw [if_neg hs2]
        obtain ⟨m, _, heq, _⟩ := extractionLoop_spec maxL ui pv stop rest 2
          [extract_place (pv 1) ui 1 l]
        refine ⟨List.mapIdx (fun i l2 => extract_place (pv (2 + i)) ui (2 + i) l2)
          (List.take m rest), ?_⟩
        show extractionLoop maxL ui pv stop rest 2 [extract_place (pv 1) ui 1 l] = _
        rw [heq]
        simp

/-- Shape of a host-alternative match: the matched text is the literal
scheme, a host alternative that heads the remaining input, and a
non-empty run of URL characters. -/
lemma matchSocialAlts_shape : ∀ (alts : List (List Char)) (rest m : List Char),
    matchSocialAlts alts rest = some m →
    ∃ a, a ∈ alts ∧ a.isPrefixOf rest = true ∧
      m = ("https://".data ++ a) ++ (rest.drop a.length).takeWhile urlChar ∧
      (rest.drop a.length).takeWhile urlChar ≠ [] := by
  intro alts
  induction alts with
  | nil => intro rest m h; simp [matchSocialAlts] at h
  | cons a more ih =>
    intro rest m h
    rw [matchSocialAlts] at h
    by_cases hp : a.isPrefixOf rest = true
    · rw [if_pos hp] at h
      by_cases hrun : (rest.drop a.length).takeWhile urlChar = []
      · rw [if_pos hrun] at h
        obtain ⟨a2, hm, hp2, hsh, hne⟩ := ih rest m h
        exact ⟨a2, by simp [hm], hp2, hsh, hne⟩
      · rw [if_neg hrun] at h
        refine ⟨a, by simp, hp, ?_, hrun⟩
        injection h with h2
        exact h2.symm
    · rw [if_neg hp] at h
      obtain ⟨a2, hm, hp2, hsh, hne⟩ := ih rest m h
      exact ⟨a2, by simp [hm], hp2, hsh, hne⟩

/-- A social-pattern match at a position starts with the literal
`https://` and is a prefix of the input at that position. -/
lemma matchSocialAt_shapeAt (alts : List (List Char)) (cs m : List Char)
    (h : matchSocialAt alts cs = some m) :
    "https://".data.isPrefixOf m = true ∧ m.isPrefixOf cs = true := by
  rw [matchSocialAt] at h
  by_cases hp : "https://".data.isPrefixOf cs = true
  · rw [if_pos hp] at h
    obtain ⟨a, _, hap, hsh, _⟩ := matchSocialAlts_shape alts (cs.drop 8) m h
    obtain ⟨r8, hr8⟩ := List.isPrefixOf_iff_prefix.mp hp
    have hdrop8 : cs.drop 8 = r8 := by
      rw [← hr8]
      exact List.drop_left "https://".data r8
    obtain ⟨r2, hr2⟩ := List.isPrefixOf_iff_prefix.mp hap
    have hr2d : (cs.drop 8).drop a.length = r2 := by
      rw [← hr2]
      exact List.drop_left a r2
    constructor
    · rw [hsh]
      apply List.isPrefixOf_iff_prefix.mpr
      rw [List.append_assoc]
      exact ⟨_, rfl⟩
    · apply List.isPrefixOf_iff_prefix.mpr
      refine ⟨r2.dropWhile urlChar, ?_⟩
      rw [hsh, hr2d]
      rw [List.append_assoc, List.append_assoc, List.takeWhile_append_dropWhile]
      rw [hr2, hdrop8, hr8]
  · rw [if_neg hp] at h
    exact absurd h (by simp)

/-- Whatever the social search returns starts with `https://` and occurs
contiguously in the body. -/
lemma searchSocial_match_shape : ∀ (alts : List (List Char)) (cs m : List Char),
    searchSocial alts cs = some m →
    "https://".data.isPrefixOf m = true ∧ infixOfAux m cs = true := by
  intro alts cs
  induction cs with
  | nil => intro m h; simp [searchSocial] at h
  | cons c t ih =>
    intro m h
    rw [searchSocial] at h
    cases hm : matchSocialAt alts (c :: t) with
    | some m2 =>
      rw [hm] at h
      injection h with h2
      subst h2
      obtain ⟨hpre, hcs⟩ := matchSocialAt_shapeAt alts (c :: t) m2 hm
      refine ⟨hpre, ?_⟩
      obtain ⟨r, hr⟩ := List.isPrefixOf_iff_prefix.mp hcs
      exact (infixOfAux_iff m2 (c :: t)).mpr ⟨[], r, by simp [hr.symm]⟩
    | none =>
      rw [hm] at h
      obtain ⟨hpre, hinf⟩ := ih m h
      refine ⟨hpre, ?_⟩
      obtain ⟨l, r, hlr⟩ := (infixOfAux_iff m t).mp hinf
      exact (infixOfAux_iff m (c :: t)).mpr ⟨c :: l, r, by simp [hlr]⟩

/-- With a non-empty website URL and a status-200 body, each social field
of the sniffer's output is the first match of its own pattern, or the old
value when the pattern finds nothing. -/
lemma extract_social_links_fields (fetch : String → Option String) (website : String)
    (p : Place) (html : String) (hw : ¬(website = ""))
    (hf : fetch (normalize_site_url website) = some html) :
    (extract_social_links fetch website p).instagram_url =
      (match searchSocial instaAlts html.data with
       | some m => String.mk m | none => p.instagram_url) ∧
    (extract_social_links fetch website p).facebook_url =
      (match searchSocial fbAlts html.data with
       | some m => String.mk m | none => p.facebook_url) ∧
    (extract_social_links fetch website p).linkedin_url =
      (match searchSocial liAlts html.data with
       | some m => String.mk m | none => p.linkedin_url) ∧
    (extract_social_links fetch website p).x_url =
      (match searchSocial xAlts html.data with
       | some m => String.mk m | none => p.x_url) := by
  rw [extract_social_links, if_neg hw, hf]
  cases hi : searchSocial instaAlts html.data <;>
    cases hb : searchSocial fbAlts html.data <;>
      cases hl : searchSocial liAlts html.data <;>
        cases hx : searchSocial xAlts html.data <;>
          simp [hi, hb, hl, hx]

/-- C9: the four social-link patterns each require the literal prefix
`https://`: for every fetched body, when a pattern finds no match the
corresponding field stays unset and normalizes to "-" (so a body whose
profile links are all http-only or schemeless — which can contain no
https match, as every match starts with `https://` and occurs in the
body — leaves the field "-"), and when a match exists the field receives
that first (leftmost) occurrence; concretely, an http-only and schemeless
body matches nothing and a body with two https Instagram links yields the
first. -/
theorem C9_social_patterns_require_https (html : String) :
    ((searchSocial instaAlts html.data = none →
      (normalize_place (extract_social_links (fun _ => some html) "site.example"
        emptyPlace)).instagram_url = "-") ∧
     (∀ m, searchSocial instaAlts html.data = some m →
      (extract_social_links (fun _ => some html) "site.example"
        emptyPlace).instagram_url = String.mk m)) ∧
    ((searchSocial fbAlts html.data = none →
      (normalize_place (extract_social_links (fun _ => some html) "site.example"
        emptyPlace)).facebook_url = "-") ∧
     (∀ m, searchSocial fbAlts html.data = some m →
      (extract_social_links (fun _ => some html) "site.example"
        emptyPlace).facebook_url = String.mk m)) ∧
    ((searchSocial liAlts html.data = none →
      (normalize_place (extract_social_links (fun _ => some html) "site.example"
        emptyPlace)).linkedin_url = "-") ∧
     (∀ m, searchSocial liAlts html.data = some m →
      (extract_social_links (fun _ => some html) "site.example"
        emptyPlace).linkedin_url = String.mk m)) ∧
    ((searchSocial xAlts html.data = none →
      (normalize_place (extract_social_links (fun _ => some html) "site.example"
        emptyPlace)).x_url = "-") ∧
     (∀ m, searchSocial xAlts html.data = some m →
      (extract_social_links (fun _ => some html) "site.example"
        emptyPlace).x_url = String.mk m)) ∧
    (∀ (alts : List (List Char)) (cs m : List Char), searchSocial alts cs = some m →
      "https://".data.isPrefixOf m = true ∧ infixOfAux m cs = true) ∧
    (searchSocial instaAlts
      "see http://instagram.com/acme and www.instagram.com/acme".data = none) ∧
    (searchSocial instaAlts
      "a https://www.instagram.com/first b https://instagram.com/second".data =
      some "https://www.instagram.com/first".data) := by
  have hf := extract_social_links_fields (fun _ => some html) "site.example" emptyPlace html
    (by decide) rfl
  refine ⟨⟨?_, ?_⟩, ⟨?_, ?_⟩, ⟨?_, ?_⟩, ⟨?_, ?_⟩,
    searchSocial_match_shape, by decide, by decide⟩
  · intro hnone
    show normField (extract_social_links (fun _ => some html) "site.example"
      emptyPlace).instagram_url = "-"
    simp only [hf.1, hnone]
    decide
  · intro m hsome
    simp only [hf.1, hsome]
  · intro hnone
    show normField (extract_social_links (fun _ => some html) "site.example"
      emptyPlace).facebook_url = "-"
    simp only [hf.2.1, hnone]
    decide
  · intro m hsome
    simp only [hf.2.1, hsome]
  · intro hnone
    show normField (extract_social_links (fun _ => some html) "site.example"
      emptyPlace).linkedin_url = "-"
    simp only [hf.2.2.1, hnone]
    decide
  · intro m hsome
    simp only [hf.2.2.1, hsome]
  · intro hnone
    show normField (extract_social_links (fun _ => some html) "site.example"
      emptyPlace).x_url = "-"
    simp only [hf.2.2.2, hnone]
    decide
  · intro m hsome
    simp only [hf.2.2.2, hsome]

/-- Witness for the amended C3: the bare-token field of the concrete
single-row widget takes one of the five shapes. -/
theorem C3_hours_fields_forms_witness :
    "9 AM" = "-" ∨ "9 AM" = "Closed" ∨ "9 AM" = "Open 24 hours" ∨
      RangeForm "9 AM" ∨ BareToken "9 AM" :=
  C3_hours_fields_forms [("monday", "9 AM")] emptyPlace "9 AM" (by decide)
